import Mathlib

/-!
# bigquerysync: schema inference and record normalisation

A shallow embedding of `bigquerysync/schema.go` and `bigquerysync/bigquery.go`.
Calls that leave the package (datastore, regexp, encoding/json, time, the HTTP
client) appear as explicit inputs of the embedded functions.
-/

namespace bigquerysync

/-! ## schema.go -/

/-- StatByProperty holds the statistic information about an entity property.
`Typ` is the Go field `Type`; the int64 counters are integers (they are only
compared, never added). -/
structure StatByProperty where
  Count : Int
  Typ : String
  Name : String
  deriving DecidableEq, Repr

/-- StatByKind holds the statistic information about an entity kind. -/
structure StatByKind where
  Count : Int
  Kind : String
  deriving DecidableEq, Repr

/-- The fields of `bigquery.TableFieldSchema` that SchemaForKind writes. -/
structure TableFieldSchema where
  Name : String
  Typ : String
  Mode : String
  deriving DecidableEq, Repr

/-- The `Fields` slice of a `bigquery.TableSchema`. -/
structure TableSchema where
  Fields : List TableFieldSchema
  deriving DecidableEq, Repr

/-- The `range s.Fields` loop of containsField: true at the first field named `n`. -/
def containsFieldLoop (n : String) : List TableFieldSchema → Bool
  | [] => false
  | f :: fs => if f.Name = n then true else containsFieldLoop n fs

/-- containsField checks if we have a field detected already. -/
def containsField (s : TableSchema) (n : String) : Bool :=
  containsFieldLoop n s.Fields

/-- The `switch s.Type` of SchemaForKind: the value left in `f.Type`, which
stays the empty string when no case applies. -/
def fieldType (t : String) : String :=
  if t = "Blob" ∨ t = "BlobKey" ∨ t = "Category" ∨ t = "Email" ∨ t = "IM" ∨ t = "Key"
      ∨ t = "Link" ∨ t = "PhoneNumber" ∨ t = "PostalAddress" ∨ t = "Rating"
      ∨ t = "ShortBlob" ∨ t = "String" then "STRING"
  else if t = "Date/Time" then "TIMESTAMP"
  else if t = "Boolean" then "BOOLEAN"
  else if t = "Float" then "FLOAT"
  else if t = "Integer" then "Integer"
  else ""

/-- The value left in `f.Mode`: "REPEATED" when the property count exceeds the
entity count of the kind, the zero value otherwise. -/
def fieldMode (kindStats : StatByKind) (s : StatByProperty) : String :=
  if s.Count > kindStats.Count then "REPEATED" else ""

/-- The field SchemaForKind builds for one property stat. -/
def newField (kindStats : StatByKind) (s : StatByProperty) : TableFieldSchema :=
  { Name := s.Name, Typ := fieldType s.Typ, Mode := fieldMode kindStats s }

/-- One pass through the body of the loop of SchemaForKind, for a stat that the
iterator delivered without error. -/
def addStat (kindStats : StatByKind) (schema : TableSchema) (s : StatByProperty) :
    TableSchema :=
  if !containsField schema s.Name then
    let f := newField kindStats s
    if f.Typ ≠ "" then ⟨schema.Fields ++ [f]⟩ else schema
  else schema

/-- The loop of SchemaForKind over the results of `it.Next`: the list holds the
results delivered before `datastore.Done`, an error result aborts. -/
def schemaLoop (kind : String) (kindStats : StatByKind) :
    List (Except String StatByProperty) → TableSchema → Except String TableSchema
  | [], schema => .ok schema
  | .error e :: _, _ => .error ("can't load property stats " ++ kind ++ ": " ++ e)
  | .ok s :: rest, schema => schemaLoop kind kindStats rest (addStat kindStats schema s)

/-- SchemaForKind guesses the schema based on the datastore statistics for the
specified entity kind. `get` is the result of `datastore.Get` for the kind stat,
`it` the results of the property-stat query in query order. -/
def SchemaForKind (kind : String) (get : Except String StatByKind)
    (it : List (Except String StatByProperty)) : Except String TableSchema :=
  match get with
  | .error e => .error ("no stats for '" ++ kind ++ "': " ++ e)
  | .ok kindStats => schemaLoop kind kindStats it ⟨[]⟩

/-- The partially built schema after the loop has processed the given stats. -/
def schemaAfter (kindStats : StatByKind) (stats : List StatByProperty) : TableSchema :=
  stats.foldl (addStat kindStats) ⟨[]⟩

/-- The target types of the mapping table of the specification. -/
def targetTypes : List String := ["STRING", "TIMESTAMP", "BOOLEAN", "FLOAT", "INTEGER"]

/-! ## bigquery.go: values and maps -/

/-- The dynamic values found in the `map[string]interface{}` that `e.Map()`
returns: `list` is `[]interface{}`, `obj` is `map[string]interface{}`, the other
constructors are the scalars (`other` stands for a scalar of any further Go
type, such as float64, named by a description). -/
inductive Value where
  | null
  | bool (b : Bool)
  | int (n : Int)
  | str (s : String)
  | other (desc : String)
  | list (xs : List Value)
  | obj (m : List (String × Value))

/-- A Go `map[string]interface{}` as an association list; an entry is found at
the first pair with its key. -/
abbrev GoMap := List (String × Value)

/-- The map read `m[k]` with the comma-ok flag: `none` when the key is absent. -/
def mapGet : GoMap → String → Option Value
  | [], _ => none
  | (k0, v) :: rest, k => if k0 = k then some v else mapGet rest k

/-- The builtin `delete(m, k)`. -/
def mapDelete (m : GoMap) (k : String) : GoMap :=
  m.filter (fun p => decide (p.1 ≠ k))

/-- The assignment `m[k] = v`. -/
def mapSet (m : GoMap) (k : String) (v : Value) : GoMap :=
  (k, v) :: mapDelete m k

/-- The keys of a map, with multiplicity. -/
def mapKeys (m : GoMap) : List String := m.map Prod.fst

/-- The comparison `t == "blob"` of an interface value with a string constant. -/
def isBlob : Value → Bool
  | .str s => decide (s = "blob")
  | _ => false

/-- The read `m[k]` without the flag: the nil interface when the key is absent. -/
def mapIndex (m : GoMap) (k : String) : Value :=
  match mapGet m k with
  | some v => v
  | none => .null

/-! ## bigquery.go: record normalisation -/

/-- Functions that entityToRow and marshalField call and whose code is not in
these two files: `regexp.Compile` (the matcher of a valid pattern, `none` for an
invalid one), `json.Marshal` on a sequence, `MakeFieldName`, and the RFC 3339
rendering of a clock reading. -/
structure Deps where
  Compile : String → Option (String → Bool)
  Marshal : List Value → Except String String
  MakeFieldName : String → String
  FormatRFC3339 : Int → String

/-- Modelled from the spec: the record type `aetools.Entity` is declared outside
these files. A record has a key (here its encoded form and its kind) and a
mapping from property name to typed value; `Map` is the result of `e.Map()`,
which is an error when the record cannot be read as a property map. -/
structure Entity where
  KeyEncode : String
  KeyKind : String
  Map : Except String GoMap

/-- The test of marshalField on the first element: `f` is a
`map[string]interface{}` and `f["type"] == "blob"`. -/
def firstIsBlob : Value → Bool
  | .obj m => isBlob (mapIndex m "type")
  | _ => false

/-- marshalField serializes the value of a field that is not mappable to
BigQuery directly. The second component is the returned error. -/
def marshalField (marshal : List Value → Except String String) (v : List Value) :
    String × Option String :=
  match v with
  | [] => ("", none)
  | f :: _ =>
    if firstIsBlob f then ("(blob)", none)
    else
      match marshal v with
      | .error _ => ("", none)
      | .ok b => (b, none)

/-- The type switch of entityToRow: the pair `value, err` it leaves for a
property value `v`. -/
def fieldValue (marshal : List Value → Except String String) (v : Value) :
    Value × Option String :=
  match v with
  | .list xs => (.str (marshalField marshal xs).1, (marshalField marshal xs).2)
  | .obj m =>
    match mapGet m "type" with
    | some t => if isBlob t then (.str "(blob)", none) else (mapIndex m "value", none)
    | none => (mapIndex m "value", none)
  | _ => (v, none)

/-- The call `strings.Trim(s, " \t\n")` on the characters of `s`. -/
def trimCutset (s : List Char) : List Char :=
  let cut : Char → Bool := fun c => decide (c = ' ' ∨ c = '\t' ∨ c = '\n')
  ((s.dropWhile cut).reverse.dropWhile cut).reverse

/-- The matcher of `regexp.MustCompile("^$")`: the pattern matches the empty
string and nothing else. -/
def matchEmptyOnly (k : String) : Bool := decide (k = "")

/-- The regular expression entityToRow ends up with: the exclusion pattern is
trimmed, the empty pattern is replaced by "^$", and an invalid pattern is
replaced by the matcher of "^$". -/
def excludeMatcher (d : Deps) (exclude : String) : String → Bool :=
  let trimmed := String.mk (trimCutset exclude.data)
  let pattern := if trimmed = "" then "^$" else trimmed
  if pattern = "^$" then matchEmptyOnly
  else
    match d.Compile pattern with
    | some re => re
    | none => matchEmptyOnly

/-- The body of the `range row` loop of entityToRow for the entry `k, v`. -/
def rangeBody (d : Deps) (excludeRe : String → Bool) (row : GoMap) (k : String) (v : Value) :
    Except String GoMap :=
  if excludeRe k then .ok (mapDelete row k)
  else
    match (fieldValue d.Marshal v).2 with
    | some err => .error err
    | none =>
      if k ≠ d.MakeFieldName k then
        .ok (mapSet (mapDelete row k) (d.MakeFieldName k) (fieldValue d.Marshal v).1)
      else .ok (mapSet row k (fieldValue d.Marshal v).1)

/-- The `range row` loop of entityToRow. Go leaves the order of a map iteration
open, skips an entry removed before it is reached, and may or may not produce an
entry created during the iteration: `order` lists the keys in the order in which
the iterator considers them, and a key is produced only if the map holds it when
its turn comes. -/
def rangeLoop (d : Deps) (excludeRe : String → Bool) : List String → GoMap → Except String GoMap
  | [], row => .ok row
  | k :: ks, row =>
    match mapGet row k with
    | none => rangeLoop d excludeRe ks row
    | some v =>
      match rangeBody d excludeRe row k v with
      | .error err => .error err
      | .ok row1 => rangeLoop d excludeRe ks row1

/-- An iteration order Go allows for a `range` over `row`: no key is produced
twice and every key the map holds at the start has its turn. -/
def RangeOrder (row : GoMap) (order : List String) : Prop :=
  order.Nodup ∧ ∀ k ∈ mapKeys row, k ∈ order

instance (row : GoMap) (order : List String) : Decidable (RangeOrder row order) := by
  unfold RangeOrder; exact inferInstance

/-- entityToRow converts an aetools.Entity to a map suitable for ingesting into
bigquery as a row. `now` is the reading of `time.Now()`, `order` the order of
the map iteration. -/
def entityToRow (d : Deps) (now : Int) (order : List String) (e : Entity) (exclude : String) :
    Except String GoMap :=
  match e.Map with
  | .error err => .error err
  | .ok row =>
    match rangeLoop d (excludeMatcher d exclude) order row with
    | .error err => .error err
    | .ok row1 => .ok (mapSet row1 "__timestamp__" (.str (d.FormatRFC3339 now)))

/-- The map after the iterator has considered the key `k`: unchanged when the
map does not hold `k`, otherwise as the body of the loop leaves it. -/
def stepRow (d : Deps) (excludeRe : String → Bool) (row : GoMap) (k : String) : GoMap :=
  match mapGet row k with
  | none => row
  | some v =>
    if excludeRe k then mapDelete row k
    else if k ≠ d.MakeFieldName k then
      mapSet (mapDelete row k) (d.MakeFieldName k) (fieldValue d.Marshal v).1
    else mapSet row k (fieldValue d.Marshal v).1

/-! ## bigquery.go: streaming ingestion -/

/-- InsertAllRequestKind is the API Kind field value for the streaming bigquery
ingestion request. -/
def InsertAllRequestKind : String := "bigquery#tableDataInsertAllRequest"

/-- InsertRow represents one row to be ingested. -/
structure InsertRow where
  InsertID : String
  Json : GoMap

/-- InsertAllRequest is the payload to streaming data into BigQuery. -/
structure InsertAllRequest where
  Kind : String
  Rows : List InsertRow

/-- The error detail `bigquery.ErrorProto` of the API client. -/
structure ErrorProto where
  DebugInfo : String
  Location : String
  Message : String
  Reason : String
  deriving DecidableEq, Repr

/-- One entry of `InsertErrors` in `bigquery.TableDataInsertAllResponse`: the
index of the failing row and its error details. -/
structure InsertErrors where
  Index : Int
  Errors : List ErrorProto
  deriving DecidableEq, Repr

/-- The HTTP response handed back by `client.Post`. -/
structure Response where
  StatusCode : Int
  Body : String
  deriving DecidableEq, Repr

/-- What IngestToBigQuery calls outside these files, after the rows are built:
`json.Marshal` of the request, `NewClient`, `client.Post` (by URL and payload),
`googleapi.CheckResponse` (the error it reports, if any), the JSON decoding of
the response into its `InsertErrors`, and the `%v` rendering of an error detail. -/
structure Remote where
  MarshalRequest : InsertAllRequest → Except String String
  NewClient : Except String Unit
  Post : String → String → Except String Response
  CheckResponse : Response → Option String
  Decode : Response → Except String (List InsertErrors)
  FormatDetail : ErrorProto → String

/-- The calls IngestToBigQuery makes towards the remote service. -/
inductive Event where
  | newClient
  | post (url payload : String)
  deriving DecidableEq, Repr

/-- The returned error (`none` is nil) and the calls made, in order. -/
structure IngestResult where
  err : Option String
  events : List Event
  deriving DecidableEq, Repr

/-- The verb `%d` on an int64: the decimal digits, after a minus sign for a
negative number. -/
def formatInt : Int → String
  | .ofNat n => String.mk (Nat.toDigits 10 n)
  | .negSucc n => String.mk ('-' :: Nat.toDigits 10 (n + 1))

/-- The identifier `fmt.Sprintf("%s#%d", e.Key.Encode(), time.Now().UnixNano())`. -/
def insertId (encodedKey : String) (unixNano : Int) : String :=
  encodedKey ++ "#" ++ formatInt unixNano

/-- The URL `fmt.Sprintf(InsertAllURL, project, dataset, kind)`. -/
def insertAllURL (project dataset kind : String) : String :=
  "https://www.googleapis.com/bigquery/v2/projects/" ++ project ++ "/datasets/" ++ dataset
    ++ "/tables/" ++ kind ++ "/insertAll"

/-- The loop of IngestToBigQuery over the entities. The entity at position `i`
of the batch is normalised with clock reading `clock (2 * i)` and iteration
order `orders i`, and its identifier takes the next reading `clock (2 * i + 1)`;
the first normalisation error ends the loop. -/
def ingestRows (d : Deps) (clock : Nat → Int) (orders : Nat → List String) (exclude : String) :
    Nat → List Entity → List InsertRow → Except String (List InsertRow)
  | _, [], rows => .ok rows
  | i, e :: es, rows =>
    match entityToRow d (clock (2 * i)) (orders i) e exclude with
    | .error err => .error err
    | .ok row =>
      ingestRows d clock orders exclude (i + 1) es
        (rows ++ [⟨insertId e.KeyEncode (clock (2 * i + 1)), row⟩])

/-- The text built in the buffer when the response lists insert errors. -/
def insertErrorsText (formatDetail : ErrorProto → String) (insertErrors : List InsertErrors) :
    String :=
  insertErrors.foldl
    (fun buff e =>
      e.Errors.foldl (fun buff det => buff ++ "- " ++ formatDetail det ++ "\n")
        (buff ++ "Errors at field index " ++ formatInt e.Index ++ ": "))
    "Insert errors when ingesting:\n"

/-- IngestToBigQuery takes the entities and ingests their JSON representation
into the configured project. -/
def IngestToBigQuery (d : Deps) (r : Remote) (clock : Nat → Int) (orders : Nat → List String)
    (project dataset : String) (entities : List Entity) (exclude : String) : IngestResult :=
  match entities with
  | [] => ⟨none, []⟩
  | first :: _ =>
    match ingestRows d clock orders exclude 0 entities [] with
    | .error err => ⟨some err, []⟩
    | .ok rows =>
      match r.MarshalRequest ⟨InsertAllRequestKind, rows⟩ with
      | .error err => ⟨some err, []⟩
      | .ok payload =>
        match r.NewClient with
        | .error err => ⟨some err, [.newClient]⟩
        | .ok _ =>
          let url := insertAllURL project dataset first.KeyKind
          match r.Post url payload with
          | .error err => ⟨some err, [.newClient, .post url payload]⟩
          | .ok resp =>
            match r.CheckResponse resp with
            | some err => ⟨some err, [.newClient, .post url payload]⟩
            | none =>
              match r.Decode resp with
              | .error err => ⟨some err, [.newClient, .post url payload]⟩
              | .ok result =>
                if result.length ≠ 0 then
                  ⟨some (insertErrorsText r.FormatDetail result),
                    [.newClient, .post url payload]⟩
                else ⟨none, [.newClient, .post url payload]⟩

/-- The error text as the specification words it: the header, then for each
failing entry in order "Errors at field index <index>: " followed by
"- <detail>\n" for each of its details in order. -/
def insertErrorsSpecText (formatDetail : ErrorProto → String) (insertErrors : List InsertErrors) :
    String :=
  "Insert errors when ingesting:\n" ++
    String.join (insertErrors.map (fun e =>
      "Errors at field index " ++ formatInt e.Index ++ ": " ++
        String.join (e.Errors.map (fun det => "- " ++ formatDetail det ++ "\n"))))

/-- A tagged wrapper whose type marker is "blob": a map whose "type" entry is the
string "blob". -/
def taggedBlob : Value → Bool
  | .obj m =>
    match mapGet m "type" with
    | some (.str t) => decide (t = "blob")
    | _ => false
  | _ => false

/-- A value that the specification sends to the placeholder: a tagged blob
wrapper, or a non-empty sequence whose first element is one. -/
def blobValued : Value → Bool
  | .list (f :: _) => taggedBlob f
  | .list [] => false
  | v => taggedBlob v

/-- The characters of a name that needs no sanitising: letters, digits and the
underscore. -/
def wordChar (c : Char) : Bool := c.isAlphanum || decide (c = '_')

/-- The behaviour of `regexp.Compile` on the patterns `^w$` with `w` made of
letters, digits and underscores: the pattern is valid and matches the string `w`
and nothing else. Patterns of another shape are outside this example model and
are answered like invalid ones. -/
def compileAnchoredWord (p : String) : Option (String → Bool) :=
  match p.data with
  | '^' :: rest =>
    match rest.reverse with
    | '$' :: w => if w.all wordChar then some (fun k => decide (k.data = w.reverse)) else none
    | _ => none
  | _ => none

/-- The dependencies at which the examples are evaluated. The examples use only
property names made of letters, digits and underscores, which a sanitiser of
column names leaves unchanged, only patterns of the shape `^w$`, no sequence
values, so that `json.Marshal` is never reached, and a fixed rendering of the
clock reading. -/
def exampleDeps : Deps where
  Compile := compileAnchoredWord
  Marshal := fun _ => .error "json.Marshal is not part of the examples"
  MakeFieldName := fun k => k
  FormatRFC3339 := fun _ => "2014-05-01T12:00:00Z"

/-- The remote side at which the examples are evaluated: the request of the
example (the record k1 with a: "x", read at clock 0) is marshalled, the client
is built, the post succeeds with status 200, and the response body decodes to
one insert error at row index 0 with the single detail of reason "invalid". The
detail is rendered as `%v` renders a pointer to a struct of four strings. -/
def exampleRemote : Remote where
  MarshalRequest := fun _ =>
    .ok ("\x7b\"kind\":\"bigquery#tableDataInsertAllRequest\",\"rows\":[\x7b\"insertId\":\"k1#0\","
      ++ "\"json\":\x7b\"__timestamp__\":\"2014-05-01T12:00:00Z\",\"a\":\"x\"\x7d\x7d]\x7d")
  NewClient := .ok ()
  Post := fun _ _ =>
    .ok ⟨200, "\x7b\"insertErrors\":[\x7b\"index\":0,"
      ++ "\"errors\":[\x7b\"reason\":\"invalid\"\x7d]\x7d]\x7d"⟩
  CheckResponse := fun _ => none
  Decode := fun _ => .ok [⟨0, [⟨"", "", "", "invalid"⟩]⟩]
  FormatDetail := fun det =>
    "&\x7b" ++ det.DebugInfo ++ " " ++ det.Location ++ " " ++ det.Message ++ " " ++ det.Reason
      ++ "\x7d"

/-- A value that is neither a sequence nor a map. -/
def scalarValue : Value → Bool
  | .list _ => false
  | .obj _ => false
  | _ => true

/-- Modelled from the spec: `MakeFieldName` is declared outside these files. The
specification describes it as a stable normalisation of a property name to a
canonical form, for instance by replacing the characters that are illegal in a
column identifier; here every character other than a letter, a digit or the
underscore is replaced by an underscore. -/
def sanitizeName (k : String) : String :=
  String.mk (k.data.map (fun c => if wordChar c then c else '_'))

/-- The example dependencies with the sanitiser modelled from the specification. -/
def sanitizingDeps : Deps where
  Compile := compileAnchoredWord
  Marshal := fun _ => .error "json.Marshal is not part of the examples"
  MakeFieldName := sanitizeName
  FormatRFC3339 := fun _ => "2014-05-01T12:00:00Z"

/-- A record with twelve properties, for the examples: the property "a.b" holds
a wrapper of a wrapper, the others hold integers under canonical names. -/
def twelveProperties : GoMap :=
  [("a.b", .obj [("value", .obj [("value", .int 1)])]),
    ("p01", .int 1), ("p02", .int 2), ("p03", .int 3), ("p04", .int 4), ("p05", .int 5),
    ("p06", .int 6), ("p07", .int 7), ("p08", .int 8), ("p09", .int 9), ("p10", .int 10),
    ("p11", .int 11)]

/-- An iteration over `twelveProperties` that produces, after "a.b", the entry
created under "a_b". -/
def twelveOrder : List String :=
  ["p01", "p02", "p03", "p04", "p05", "a.b", "p06", "p07", "p08", "p09", "p10", "p11", "a_b"]

/-! ## Lemmas on the schema loop -/

theorem containsField_iff (fs : List TableFieldSchema) (n : String) :
    containsField ⟨fs⟩ n = true ↔ n ∈ fs.map TableFieldSchema.Name := by
  unfold containsField
  induction fs with
  | nil => simp [containsFieldLoop]
  | cons f fs ih =>
    by_cases h : f.Name = n
    · simp [containsFieldLoop, h]
    · have h2 : ¬ n = f.Name := fun e => h e.symm
      simp only [containsFieldLoop, h, if_false, List.map_cons, List.mem_cons, h2, false_or]
      exact ih

theorem schemaLoop_ok (kind : String) (ks : StatByKind) (stats : List StatByProperty)
    (acc : TableSchema) :
    schemaLoop kind ks (stats.map Except.ok) acc = .ok (stats.foldl (addStat ks) acc) := by
  induction stats generalizing acc with
  | nil => rfl
  | cons s rest ih => simp [schemaLoop, ih]

theorem SchemaForKind_ok (kind : String) (ks : StatByKind) (stats : List StatByProperty) :
    SchemaForKind kind (.ok ks) (stats.map Except.ok) = .ok (schemaAfter ks stats) := by
  simp [SchemaForKind, schemaAfter, schemaLoop_ok]

theorem schemaAfter_snoc (ks : StatByKind) (stats : List StatByProperty) (s : StatByProperty) :
    schemaAfter ks (stats ++ [s]) = addStat ks (schemaAfter ks stats) s := by
  simp [schemaAfter, List.foldl_append]

theorem mem_addStat (ks : StatByKind) (acc : TableSchema) (s : StatByProperty)
    (f : TableFieldSchema) :
    f ∈ (addStat ks acc s).Fields ↔
      f ∈ acc.Fields ∨
        (s.Name ∉ acc.Fields.map TableFieldSchema.Name ∧ fieldType s.Typ ≠ "" ∧
          f = newField ks s) := by
  have hc := containsField_iff acc.Fields s.Name
  unfold addStat
  by_cases h1 : containsField acc s.Name = true
  · have h1m := hc.mp h1
    simp only [h1, Bool.not_true, Bool.false_eq_true, if_false]
    constructor
    · intro h; exact Or.inl h
    · rintro (h | ⟨h, _, _⟩)
      · exact h
      · exact absurd h1m h
  · have h1m : s.Name ∉ acc.Fields.map TableFieldSchema.Name := fun h => h1 (hc.mpr h)
    have h1f : containsField acc s.Name = false := by simpa using h1
    simp only [h1f, Bool.not_false, if_true]
    by_cases h2 : fieldType s.Typ = ""
    · simp [newField, h2]
    · simp [newField, h2, h1m]

theorem nodup_addStat (ks : StatByKind) (acc : TableSchema) (s : StatByProperty)
    (h : (acc.Fields.map TableFieldSchema.Name).Nodup) :
    ((addStat ks acc s).Fields.map TableFieldSchema.Name).Nodup := by
  have hc := containsField_iff acc.Fields s.Name
  unfold addStat
  by_cases h1 : containsField acc s.Name = true
  · simpa [h1] using h
  · have h1m : s.Name ∉ acc.Fields.map TableFieldSchema.Name := fun h => h1 (hc.mpr h)
    have h1f : containsField acc s.Name = false := by simpa using h1
    simp only [h1f, Bool.not_false, if_true]
    by_cases h2 : fieldType s.Typ = ""
    · simpa [newField, h2] using h
    · simp only [newField, ne_eq, h2, not_false_eq_true, if_true, List.map_append,
        List.map_cons, List.map_nil]
      rw [List.nodup_append]
      refine ⟨h, List.nodup_singleton _, ?_⟩
      intro a ha hb
      simp only [List.mem_singleton] at hb
      subst hb
      exact h1m ha

theorem nodup_schemaAfter (ks : StatByKind) (stats : List StatByProperty) :
    ((schemaAfter ks stats).Fields.map TableFieldSchema.Name).Nodup := by
  induction stats using List.reverseRecOn with
  | nil => simp [schemaAfter]
  | append_singleton stats s ih =>
    rw [schemaAfter_snoc]
    exact nodup_addStat ks _ s ih

/-- The names of the fields are the names that have a stat with a mapped type. -/
theorem name_mem_schemaAfter (ks : StatByKind) (stats : List StatByProperty) (n : String) :
    n ∈ (schemaAfter ks stats).Fields.map TableFieldSchema.Name ↔
      ∃ s ∈ stats, s.Name = n ∧ fieldType s.Typ ≠ "" := by
  induction stats using List.reverseRecOn with
  | nil => simp [schemaAfter]
  | append_singleton stats s ih =>
    rw [schemaAfter_snoc]
    simp only [List.mem_map, mem_addStat] at ih ⊢
    constructor
    · rintro ⟨f, hf | ⟨_, hm, rfl⟩, rfl⟩
      · obtain ⟨s0, hs0, hn, ht⟩ := ih.mp ⟨f, hf, rfl⟩
        exact ⟨s0, List.mem_append_left _ hs0, hn, ht⟩
      · exact ⟨s, by simp, rfl, hm⟩
    · rintro ⟨s0, hs0, rfl, ht⟩
      rcases List.mem_append.mp hs0 with h | h
      · obtain ⟨f, hf, hn⟩ := ih.mpr ⟨s0, h, rfl, ht⟩
        exact ⟨f, Or.inl hf, hn⟩
      · simp only [List.mem_singleton] at h
        subst h
        by_cases hin : ∃ a ∈ (schemaAfter ks stats).Fields, a.Name = s0.Name
        · obtain ⟨f, hf, hn⟩ := hin
          exact ⟨f, Or.inl hf, hn⟩
        · exact ⟨newField ks s0, Or.inr ⟨hin, ht, rfl⟩, rfl⟩

/-- Every field is built from the first stat of its name that has a mapped type. -/
theorem field_of_schemaAfter (ks : StatByKind) (stats : List StatByProperty)
    (f : TableFieldSchema) (hf : f ∈ (schemaAfter ks stats).Fields) :
    ∃ s, stats.find? (fun s => decide (s.Name = f.Name ∧ fieldType s.Typ ≠ "")) = some s ∧
      f = newField ks s := by
  induction stats using List.reverseRecOn with
  | nil => simp [schemaAfter] at hf
  | append_singleton stats s ih =>
    rw [schemaAfter_snoc, mem_addStat] at hf
    rcases hf with hf | ⟨hn, hm, rfl⟩
    · obtain ⟨s0, h0, e0⟩ := ih hf
      exact ⟨s0, by rw [List.find?_append, h0]; rfl, e0⟩
    · refine ⟨s, ?_, rfl⟩
      have hnone : stats.find? (fun s0 => decide (s0.Name = (newField ks s).Name ∧
          fieldType s0.Typ ≠ "")) = none := by
        rw [List.find?_eq_none]
        intro s0 hs0 hp
        simp only [decide_eq_true_eq] at hp
        exact hn ((name_mem_schemaAfter ks stats s.Name).mpr ⟨s0, hs0, hp.1, hp.2⟩)
      rw [List.find?_append, hnone]
      simp [List.find?, newField, hm]

/-! ## Lemmas on maps -/

theorem mapGet_mapDelete (m : GoMap) (k x : String) :
    mapGet (mapDelete m k) x = if x = k then none else mapGet m x := by
  induction m with
  | nil => simp [mapDelete, mapGet]
  | cons p rest ih =>
    obtain ⟨k0, v⟩ := p
    unfold mapDelete at ih ⊢
    by_cases h0 : k0 = k
    · subst h0
      simp only [List.filter, ne_eq, not_true_eq_false, decide_False]
      rw [ih]
      by_cases hx : x = k0
      · simp [hx]
      · have : ¬ k0 = x := fun e => hx e.symm
        simp [hx, mapGet, this]
    · simp only [List.filter, ne_eq, h0, not_false_eq_true, decide_True, mapGet]
      rw [ih]
      by_cases hx : k0 = x
      · subst hx
        simp [h0]
      · simp [hx]

theorem mapGet_mapSet (m : GoMap) (k x : String) (v : Value) :
    mapGet (mapSet m k v) x = if x = k then some v else mapGet m x := by
  unfold mapSet
  by_cases hx : x = k
  · subst hx
    simp [mapGet]
  · have : ¬ k = x := fun e => hx e.symm
    simp [mapGet, this, hx, mapGet_mapDelete]

theorem mapGet_eq_none_iff (m : GoMap) (k : String) :
    mapGet m k = none ↔ k ∉ mapKeys m := by
  induction m with
  | nil => simp [mapGet, mapKeys]
  | cons p rest ih =>
    obtain ⟨k0, v⟩ := p
    by_cases h0 : k0 = k
    · simp [mapGet, mapKeys, h0]
    · have : ¬ k = k0 := fun e => h0 e.symm
      simp only [mapGet, h0, if_false, mapKeys, List.map_cons, List.mem_cons, this, false_or]
      exact ih

theorem not_mem_mapKeys_mapDelete (m : GoMap) (k : String) : k ∉ mapKeys (mapDelete m k) := by
  rw [← mapGet_eq_none_iff, mapGet_mapDelete]
  simp

theorem count_mapKeys_mapSet (m : GoMap) (k : String) (v : Value) :
    (mapKeys (mapSet m k v)).count k = 1 := by
  have h := not_mem_mapKeys_mapDelete m k
  simp only [mapSet, mapKeys, List.map_cons, List.count_cons_self] at h ⊢
  rw [List.count_eq_zero_of_not_mem h]

/-! ## Lemmas on the normalisation of a value -/

theorem firstIsBlob_eq_taggedBlob (f : Value) : firstIsBlob f = taggedBlob f := by
  cases f with
  | obj m =>
    simp only [firstIsBlob, taggedBlob, mapIndex]
    cases hm : mapGet m "type" with
    | none => rfl
    | some t => cases t <;> rfl
  | _ => rfl

theorem marshalField_err (marshal : List Value → Except String String) (v : List Value) :
    (marshalField marshal v).2 = none := by
  unfold marshalField
  cases v with
  | nil => rfl
  | cons f rest =>
    simp only
    split
    · rfl
    · split <;> rfl

theorem fieldValue_err (marshal : List Value → Except String String) (v : Value) :
    (fieldValue marshal v).2 = none := by
  unfold fieldValue
  split
  · exact marshalField_err marshal _
  · split
    · split <;> rfl
    · rfl
  · rfl

/-! ## Lemmas on the loop of entityToRow -/

theorem rangeBody_eq (d : Deps) (re : String → Bool) (row : GoMap) (k : String) (v : Value)
    (h : mapGet row k = some v) :
    rangeBody d re row k v = .ok (stepRow d re row k) := by
  unfold rangeBody stepRow
  rw [h, fieldValue_err]
  by_cases h1 : re k = true
  · simp [h1]
  · by_cases h2 : k = d.MakeFieldName k
    · simp [h1, ← h2]
    · simp [h1, h2]

theorem rangeLoop_eq (d : Deps) (re : String → Bool) (ks : List String) (row : GoMap) :
    rangeLoop d re ks row = .ok (ks.foldl (stepRow d re) row) := by
  induction ks generalizing row with
  | nil => rfl
  | cons k ks ih =>
    unfold rangeLoop
    cases h : mapGet row k with
    | none =>
      have hs : stepRow d re row k = row := by simp [stepRow, h]
      simp only [List.foldl_cons, hs]
      exact ih row
    | some v =>
      simp only [rangeBody_eq d re row k v h, List.foldl_cons]
      exact ih _

theorem entityToRow_eq (d : Deps) (now : Int) (order : List String) (e : Entity)
    (exclude : String) (row0 : GoMap) (h : e.Map = .ok row0) :
    entityToRow d now order e exclude =
      .ok (mapSet (order.foldl (stepRow d (excludeMatcher d exclude)) row0) "__timestamp__"
        (.str (d.FormatRFC3339 now))) := by
  unfold entityToRow
  rw [h]
  simp only [rangeLoop_eq]

theorem mapGet_stepRow (d : Deps) (re : String → Bool) (row : GoMap) (k x : String) :
    mapGet (stepRow d re row k) x =
      match mapGet row k with
      | none => mapGet row x
      | some v =>
        if re k = true then (if x = k then none else mapGet row x)
        else if x = d.MakeFieldName k then some (fieldValue d.Marshal v).1
        else if x = k then none else mapGet row x := by
  unfold stepRow
  cases h : mapGet row k with
  | none => rfl
  | some v =>
    simp only
    by_cases h1 : re k = true
    · simp [h1, mapGet_mapDelete]
    · have h1f : re k = false := by simpa using h1
      simp only [h1f, Bool.false_eq_true, if_false]
      by_cases h2 : k = d.MakeFieldName k
      · rw [if_neg (not_not.mpr h2), ← h2, mapGet_mapSet]
        by_cases hx : x = k <;> simp [hx]
      · rw [if_pos h2, mapGet_mapSet, mapGet_mapDelete]

/-- A key that is not considered and to which no considered key that passes the
exclusion is sanitised keeps its entry, or its absence, through the loop. -/
theorem mapGet_foldl_frame (d : Deps) (re : String → Bool) (x : String) (ks : List String)
    (row : GoMap) (hx : x ∉ ks)
    (hw : ∀ k ∈ ks, re k = false → d.MakeFieldName k ≠ x) :
    mapGet (ks.foldl (stepRow d re) row) x = mapGet row x := by
  induction ks generalizing row with
  | nil => rfl
  | cons k ks ih =>
    simp only [List.mem_cons, not_or] at hx
    rw [List.foldl_cons, ih _ hx.2 (fun k1 h1 => hw k1 (List.mem_cons_of_mem _ h1)),
      mapGet_stepRow]
    cases h : mapGet row k with
    | none => rfl
    | some v =>
      simp only
      by_cases h1 : re k = true
      · simp [h1, hx.1]
      · have h1f : re k = false := by simpa using h1
        have hm : ¬ x = d.MakeFieldName k := fun e => hw k (List.mem_cons_self _ _) h1f e.symm
        simp [h1, hm, hx.1]

/-- A key that matches the exclusion and to which no considered key that passes
the exclusion is sanitised is absent after the loop, when it is absent already or
still has its turn. -/
theorem mapGet_foldl_excluded (d : Deps) (re : String → Bool) (n : String) (hn : re n = true)
    (ks : List String) (row : GoMap) (hp : mapGet row n = none ∨ n ∈ ks)
    (hw : ∀ k ∈ ks, re k = false → d.MakeFieldName k ≠ n) :
    mapGet (ks.foldl (stepRow d re) row) n = none := by
  induction ks generalizing row with
  | nil =>
    rcases hp with h | h
    · exact h
    · simp at h
  | cons k ks ih =>
    rw [List.foldl_cons]
    apply ih _ _ (fun k1 h1 => hw k1 (List.mem_cons_of_mem _ h1))
    rw [mapGet_stepRow]
    by_cases hk : n = k
    · subst hk
      left
      cases h : mapGet row n with
      | none => rfl
      | some v => simp [hn]
    · have hp2 : mapGet row n = none ∨ n ∈ ks := by
        rcases hp with h | h
        · exact Or.inl h
        · simp only [List.mem_cons, hk, false_or] at h
          exact Or.inr h
      rcases hp2 with h | h
      · left
        cases hv : mapGet row k with
        | none => exact h
        | some v =>
          simp only
          by_cases h1 : re k = true
          · simp [h1, hk, h]
          · have h1f : re k = false := by simpa using h1
            have hm : ¬ n = d.MakeFieldName k :=
              fun e => hw k (List.mem_cons_self _ _) h1f e.symm
            simp [h1, hm, hk, h]
      · exact Or.inr h

/-- After the turn of the key that was sanitised to `x`: the entry at `x` keeps
its value `w`, or, when `x` itself still has its turn, ends up normalised once
more. -/
theorem mapGet_foldl_after (d : Deps) (re : String → Bool) (x : String) (w : Value)
    (ks : List String) (row : GoMap) (hnd : ks.Nodup) (hrow : mapGet row x = some w)
    (hcanon : d.MakeFieldName x = x) (hx : re x = false)
    (hothers : ∀ k1 ∈ ks, k1 ≠ x → re k1 = false → d.MakeFieldName k1 ≠ x) :
    mapGet (ks.foldl (stepRow d re) row) x = some w ∨
      (x ∈ ks ∧ mapGet (ks.foldl (stepRow d re) row) x = some (fieldValue d.Marshal w).1) := by
  by_cases hmem : x ∈ ks
  · right
    refine ⟨hmem, ?_⟩
    obtain ⟨pre, post, rfl⟩ := List.append_of_mem hmem
    have hnd2 := List.nodup_append.mp hnd
    have hxpre : x ∉ pre := fun h => hnd2.2.2 h (List.mem_cons_self _ _)
    have hxpost : x ∉ post := (List.nodup_cons.mp hnd2.2.1).1
    have hpre : mapGet (pre.foldl (stepRow d re) row) x = some w := by
      rw [mapGet_foldl_frame d re x pre row hxpre]
      · exact hrow
      · intro k1 h1 hre
        exact hothers k1 (List.mem_append_left _ h1) (fun e => hxpre (e ▸ h1)) hre
    rw [List.foldl_append, List.foldl_cons, mapGet_foldl_frame d re x post _ hxpost]
    · rw [mapGet_stepRow, hpre]
      simp [hx, hcanon]
    · intro k1 h1 hre
      exact hothers k1 (List.mem_append_right _ (List.mem_cons_of_mem _ h1))
        (fun e => hxpost (e ▸ h1)) hre
  · left
    rw [mapGet_foldl_frame d re x ks row hmem]
    · exact hrow
    · intro k1 h1 hre
      exact hothers k1 h1 (fun e => hmem (e ▸ h1)) hre

/-- The entry found after the loop under the sanitised name of a property `k`
that passes the exclusion, when no other considered key interferes: the
normalised value of `k`, or that value normalised once more when the created
entry has its own turn after the turn of `k`. -/
theorem mapGet_foldl_property (d : Deps) (re : String → Bool) (k : String) (v : Value)
    (ks : List String) (row : GoMap) (hnd : ks.Nodup) (hk : k ∈ ks)
    (hrow : mapGet row k = some v) (hre : re k = false)
    (hcanon : d.MakeFieldName (d.MakeFieldName k) = d.MakeFieldName k)
    (hx : re (d.MakeFieldName k) = false)
    (hothers : ∀ k1 ∈ ks, k1 ≠ k → k1 ≠ d.MakeFieldName k → re k1 = false →
      d.MakeFieldName k1 ≠ k ∧ d.MakeFieldName k1 ≠ d.MakeFieldName k) :
    mapGet (ks.foldl (stepRow d re) row) (d.MakeFieldName k) = some (fieldValue d.Marshal v).1 ∨
      (d.MakeFieldName k ≠ k ∧ d.MakeFieldName k ∈ ks ∧
        mapGet (ks.foldl (stepRow d re) row) (d.MakeFieldName k)
          = some (fieldValue d.Marshal (fieldValue d.Marshal v).1).1) := by
  obtain ⟨pre, post, rfl⟩ := List.append_of_mem hk
  have hnd2 := List.nodup_append.mp hnd
  have hkpre : k ∉ pre := fun h => hnd2.2.2 h (List.mem_cons_self _ _)
  have hkpost : k ∉ post := (List.nodup_cons.mp hnd2.2.1).1
  have hndpost : post.Nodup := (List.nodup_cons.mp hnd2.2.1).2
  have hpre : mapGet (pre.foldl (stepRow d re) row) k = some v := by
    rw [mapGet_foldl_frame d re k pre row hkpre]
    · exact hrow
    · intro k1 h1 hre1
      have hne : k1 ≠ k := fun e => hkpre (e ▸ h1)
      by_cases hm : k1 = d.MakeFieldName k
      · rw [hm, hcanon]
        exact fun e => hne (hm.trans e)
      · exact (hothers k1 (List.mem_append_left _ h1) hne hm hre1).1
  have hstep : mapGet (stepRow d re (pre.foldl (stepRow d re) row) k) (d.MakeFieldName k)
      = some (fieldValue d.Marshal v).1 := by
    rw [mapGet_stepRow, hpre]
    simp [hre]
  have hafter := mapGet_foldl_after d re (d.MakeFieldName k) (fieldValue d.Marshal v).1 post
    (stepRow d re (pre.foldl (stepRow d re) row) k) hndpost hstep hcanon hx
    (fun k1 h1 hne hre1 =>
      (hothers k1 (List.mem_append_right _ (List.mem_cons_of_mem _ h1))
        (fun e => hkpost (e ▸ h1)) hne hre1).2)
  rw [List.foldl_append, List.foldl_cons]
  rcases hafter with h | ⟨hmem, h⟩
  · exact Or.inl h
  · right
    refine ⟨fun e => hkpost (e ▸ hmem), ?_, h⟩
    exact List.mem_append_right _ (List.mem_cons_of_mem _ hmem)

theorem fieldValue_taggedBlob (marshal : List Value → Except String String) (v : Value)
    (h : taggedBlob v = true) : (fieldValue marshal v).1 = .str "(blob)" := by
  cases v with
  | obj m =>
    simp only [taggedBlob] at h
    simp only [fieldValue]
    cases hm : mapGet m "type" with
    | none => rw [hm] at h; simp at h
    | some t =>
      rw [hm] at h
      cases t with
      | str t0 =>
        have hb : isBlob (.str t0) = true := by simpa [isBlob] using h
        simp [hb]
      | _ => simp at h
  | _ => simp [taggedBlob] at h

theorem marshalField_blob (marshal : List Value → Except String String) (f : Value)
    (rest : List Value) (h : taggedBlob f = true) :
    marshalField marshal (f :: rest) = ("(blob)", none) := by
  have hb : firstIsBlob f = true := by rw [firstIsBlob_eq_taggedBlob]; exact h
  simp [marshalField, hb]

theorem fieldValue_blobValued (marshal : List Value → Except String String) (v : Value)
    (h : blobValued v = true) : (fieldValue marshal v).1 = .str "(blob)" := by
  cases v with
  | list xs =>
    cases xs with
    | nil => simp [blobValued] at h
    | cons f rest =>
      have hf : taggedBlob f = true := by simpa [blobValued] using h
      simp [fieldValue, marshalField_blob marshal f rest hf]
  | obj m => exact fieldValue_taggedBlob marshal _ (by simpa [blobValued] using h)
  | _ => simp [blobValued, taggedBlob] at h

theorem mem_mapKeys_of_mapGet (m : GoMap) (k : String) (v : Value) (h : mapGet m k = some v) :
    k ∈ mapKeys m := by
  by_contra hc
  rw [(mapGet_eq_none_iff m k).mpr hc] at h
  exact Option.noConfusion h

theorem trimCutset_of_all (l : List Char)
    (h : ∀ c ∈ l, c = ' ' ∨ c = '\t' ∨ c = '\n') : trimCutset l = [] := by
  have h1 : l.dropWhile (fun c => decide (c = ' ' ∨ c = '\t' ∨ c = '\n')) = [] := by
    rw [List.dropWhile_eq_nil_iff]
    intro c hc
    simpa using h c hc
  show ((l.dropWhile (fun c => decide (c = ' ' ∨ c = '\t' ∨ c = '\n'))).reverse.dropWhile
    (fun c => decide (c = ' ' ∨ c = '\t' ∨ c = '\n'))).reverse = []
  rw [h1]
  rfl

/-- With an empty or blank pattern, and with a pattern that does not compile,
entityToRow matches names against "^$". -/
theorem excludeMatcher_fallback (d : Deps) (exclude : String)
    (h : (∀ c ∈ exclude.data, c = ' ' ∨ c = '\t' ∨ c = '\n') ∨
      d.Compile (String.mk (trimCutset exclude.data)) = none) :
    excludeMatcher d exclude = matchEmptyOnly := by
  unfold excludeMatcher
  rcases h with h | h
  · have ht : String.mk (trimCutset exclude.data) = "" := by
      rw [trimCutset_of_all _ h]
    simp [ht]
  · by_cases ht : String.mk (trimCutset exclude.data) = ""
    · simp [ht]
    · simp only [ht, if_false]
      split
      · rfl
      · rw [h]

/-- An entry under a name that passes the exclusion and is left unchanged by
MakeFieldName stays in the map, whichever key the iterator considers. -/
theorem isSome_stepRow_of_canonical (d : Deps) (re : String → Bool) (x : String)
    (hx : re x = false) (hcanon : d.MakeFieldName x = x) (row : GoMap) (k : String)
    (h : (mapGet row x).isSome = true) : (mapGet (stepRow d re row k) x).isSome = true := by
  rw [mapGet_stepRow]
  cases hv : mapGet row k with
  | none => exact h
  | some v =>
    simp only
    by_cases hk : x = k
    · subst hk
      simp [hx, hcanon]
    · by_cases h1 : re k = true
      · simp [h1, hk, h]
      · have h1f : re k = false := by simpa using h1
        by_cases hm : x = d.MakeFieldName k
        · simp [h1f, hm]
        · simp [h1f, hm, hk, h]

/-- A property that passes the exclusion, with a sanitised name that passes it
too and is left unchanged by MakeFieldName, has an entry under its sanitised
name after the loop, once the property has had its turn. -/
theorem isSome_foldl_sanitised (d : Deps) (re : String → Bool) (k : String)
    (hk : re k = false) (hx : re (d.MakeFieldName k) = false)
    (hcanon : d.MakeFieldName (d.MakeFieldName k) = d.MakeFieldName k) :
    ∀ (ks : List String) (row : GoMap),
    ((mapGet row (d.MakeFieldName k)).isSome = true ∨
      ((mapGet row k).isSome = true ∧ k ∈ ks)) →
    (mapGet (ks.foldl (stepRow d re) row) (d.MakeFieldName k)).isSome = true := by
  intro ks
  induction ks with
  | nil =>
    intro row h
    rcases h with h | ⟨_, h⟩
    · exact h
    · simp at h
  | cons k1 ks ih =>
    intro row h
    rw [List.foldl_cons]
    apply ih
    rcases h with h | ⟨hp, hmem⟩
    · exact Or.inl (isSome_stepRow_of_canonical d re _ hx hcanon row k1 h)
    · by_cases hkk : k = k1
      · subst hkk
        left
        rw [mapGet_stepRow]
        cases hv : mapGet row k with
        | none => rw [hv] at hp; simp at hp
        | some v => simp [hk]
      · have hmem2 : k ∈ ks := by
          simp only [List.mem_cons, hkk, false_or] at hmem
          exact hmem
        by_cases hpres : (mapGet (stepRow d re row k1) (d.MakeFieldName k)).isSome = true
        · exact Or.inl hpres
        · right
          refine ⟨?_, hmem2⟩
          rw [mapGet_stepRow]
          cases hv : mapGet row k1 with
          | none => exact hp
          | some v =>
            simp only
            by_cases h1 : re k1 = true
            · simp [h1, hkk, hp]
            · have h1f : re k1 = false := by simpa using h1
              by_cases hm : k = d.MakeFieldName k1
              · simp [h1f, hm]
              · simp [h1f, hm, hkk, hp]

/-- A key whose own turn removes it (it matches the exclusion, or it is moved to
a different sanitised name) and to which no other considered key that passes
the exclusion is sanitised is absent after the loop, when it is absent already
or still has its turn. -/
theorem mapGet_foldl_removed (d : Deps) (re : String → Bool) (n : String)
    (hdel : re n = true ∨ d.MakeFieldName n ≠ n) :
    ∀ (ks : List String) (row : GoMap), (mapGet row n = none ∨ n ∈ ks) →
    (∀ k ∈ ks, k ≠ n → re k = false → d.MakeFieldName k ≠ n) →
    mapGet (ks.foldl (stepRow d re) row) n = none := by
  intro ks
  induction ks with
  | nil =>
    intro row hp _
    rcases hp with h | h
    · exact h
    · simp at h
  | cons k ks ih =>
    intro row hp hw
    rw [List.foldl_cons]
    apply ih _ _ (fun k1 h1 => hw k1 (List.mem_cons_of_mem _ h1))
    rw [mapGet_stepRow]
    by_cases hk : n = k
    · subst hk
      left
      cases h : mapGet row n with
      | none => rfl
      | some v =>
        simp only
        by_cases h1 : re n = true
        · simp [h1]
        · have h1f : re n = false := by simpa using h1
          have hm : ¬ n = d.MakeFieldName n := by
            rcases hdel with h2 | h2
            · exact absurd h2 h1
            · exact fun e => h2 e.symm
          simp [h1f, hm]
    · have hp2 : mapGet row n = none ∨ n ∈ ks := by
        rcases hp with h | h
        · exact Or.inl h
        · simp only [List.mem_cons, hk, false_or] at h
          exact Or.inr h
      rcases hp2 with h | h
      · left
        cases hv : mapGet row k with
        | none => exact h
        | some v =>
          simp only
          by_cases h1 : re k = true
          · simp [h1, hk, h]
          · have h1f : re k = false := by simpa using h1
            have hm : ¬ n = d.MakeFieldName k :=
              fun e => hw k (List.mem_cons_self _ _) (fun e2 => hk e2.symm) h1f e.symm
            simp [h1f, hm, hk, h]
      · exact Or.inr h

/-- The entry that the returned row holds under the sanitised name of a property
that passes the exclusion, when no other considered key interferes: the
normalised value of the property, or that value normalised once more when the
entry created under the sanitised name has its own turn afterwards. -/
theorem entityToRow_property (d : Deps) (now : Int) (order : List String) (e : Entity)
    (exclude : String) (row0 : GoMap) (k : String) (v : Value)
    (hmap : e.Map = .ok row0) (horder : RangeOrder row0 order)
    (hk : mapGet row0 k = some v) (hex : excludeMatcher d exclude k = false)
    (hts : d.MakeFieldName k ≠ "__timestamp__")
    (hcanon : d.MakeFieldName (d.MakeFieldName k) = d.MakeFieldName k)
    (hmex : excludeMatcher d exclude (d.MakeFieldName k) = false)
    (hothers : ∀ k1 ∈ order, k1 ≠ k → k1 ≠ d.MakeFieldName k →
      excludeMatcher d exclude k1 = false →
      d.MakeFieldName k1 ≠ k ∧ d.MakeFieldName k1 ≠ d.MakeFieldName k) :
    ∃ row, entityToRow d now order e exclude = .ok row ∧
      (mapGet row (d.MakeFieldName k) = some (fieldValue d.Marshal v).1 ∨
        (d.MakeFieldName k ≠ k ∧ d.MakeFieldName k ∈ order ∧
          mapGet row (d.MakeFieldName k)
            = some (fieldValue d.Marshal (fieldValue d.Marshal v).1).1)) := by
  refine ⟨_, entityToRow_eq d now order e exclude row0 hmap, ?_⟩
  rw [mapGet_mapSet, if_neg hts]
  have hkmem : k ∈ order := horder.2 k (mem_mapKeys_of_mapGet row0 k v hk)
  exact mapGet_foldl_property d (excludeMatcher d exclude) k v order row0 horder.1 hkmem hk hex
    hcanon hmex hothers

theorem fieldValue_scalar (marshal : List Value → Except String String) (v : Value)
    (h : scalarValue v = true) : (fieldValue marshal v).1 = v := by
  cases v <;> first | rfl | simp [scalarValue] at h

/-! ## Lemmas on the ingestion -/

theorem foldl_append_acc (l : List String) (acc : String) :
    l.foldl (fun r s => r ++ s) acc = acc ++ String.join l := by
  unfold String.join
  induction l generalizing acc with
  | nil => simp
  | cons a l ih =>
    simp only [List.foldl_cons]
    rw [ih (acc ++ a), ih ("" ++ a)]
    simp [String.append_assoc]

theorem join_cons (a : String) (l : List String) : String.join (a :: l) = a ++ String.join l := by
  show (a :: l).foldl (fun r s => r ++ s) "" = a ++ String.join l
  rw [List.foldl_cons, foldl_append_acc]
  simp

theorem details_foldl (fmt : ErrorProto → String) (dets : List ErrorProto) (buff : String) :
    dets.foldl (fun buff det => buff ++ "- " ++ fmt det ++ "\n") buff =
      buff ++ String.join (dets.map (fun det => "- " ++ fmt det ++ "\n")) := by
  induction dets generalizing buff with
  | nil => simp [String.join]
  | cons det dets ih =>
    rw [List.foldl_cons, ih, List.map_cons, join_cons]
    simp [String.append_assoc]

theorem entries_foldl (fmt : ErrorProto → String) (errs : List InsertErrors) (buff : String) :
    errs.foldl
        (fun buff e =>
          e.Errors.foldl (fun buff det => buff ++ "- " ++ fmt det ++ "\n")
            (buff ++ "Errors at field index " ++ formatInt e.Index ++ ": "))
        buff =
      buff ++ String.join (errs.map (fun e =>
        "Errors at field index " ++ formatInt e.Index ++ ": " ++
          String.join (e.Errors.map (fun det => "- " ++ fmt det ++ "\n")))) := by
  induction errs generalizing buff with
  | nil => simp [String.join]
  | cons e errs ih =>
    rw [List.foldl_cons, ih, details_foldl, List.map_cons, join_cons]
    simp [String.append_assoc]

theorem insertErrorsText_eq_spec (fmt : ErrorProto → String) (errs : List InsertErrors) :
    insertErrorsText fmt errs = insertErrorsSpecText fmt errs := by
  unfold insertErrorsText insertErrorsSpecText
  exact entries_foldl fmt errs _

theorem digitChar_spec (m : Nat) (h : m < 10) :
    (Nat.digitChar m).isDigit = true ∧ (Nat.digitChar m).toNat - 48 = m := by
  interval_cases m <;> decide

/-- The digits that `Nat.toDigitsCore` puts in front of the accumulator are
decimal digit characters and read back as the number. -/
theorem toDigitsCore_spec (fuel : Nat) : ∀ (n : Nat) (ds : List Char), n < fuel →
    ∃ l, Nat.toDigitsCore 10 fuel n ds = l ++ ds ∧ (∀ c ∈ l, c.isDigit = true) ∧
      l.foldl (fun a c => 10 * a + (c.toNat - 48)) 0 = n := by
  induction fuel with
  | zero => intro n ds h; omega
  | succ fuel ih =>
    intro n ds h
    have hd := digitChar_spec (n % 10) (Nat.mod_lt _ (by decide))
    unfold Nat.toDigitsCore
    by_cases h0 : n / 10 = 0
    · refine ⟨[Nat.digitChar (n % 10)], by simp [h0], ?_, ?_⟩
      · intro c hc
        simp only [List.mem_singleton] at hc
        rw [hc]; exact hd.1
      · simp only [List.foldl_cons, List.foldl_nil, hd.2]
        omega
    · have hlt : n / 10 < fuel := by omega
      obtain ⟨l, hl, hdig, hval⟩ := ih (n / 10) (Nat.digitChar (n % 10) :: ds) hlt
      refine ⟨l ++ [Nat.digitChar (n % 10)], by simp [h0, hl], ?_, ?_⟩
      · intro c hc
        rcases List.mem_append.mp hc with hc | hc
        · exact hdig c hc
        · simp only [List.mem_singleton] at hc
          rw [hc]; exact hd.1
      · rw [List.foldl_append, hval]
        simp only [List.foldl_cons, List.foldl_nil, hd.2]
        omega

theorem toDigits_spec (n : Nat) :
    (∀ c ∈ Nat.toDigits 10 n, c.isDigit = true) ∧
      (Nat.toDigits 10 n).foldl (fun a c => 10 * a + (c.toNat - 48)) 0 = n := by
  obtain ⟨l, hl, hdig, hval⟩ := toDigitsCore_spec (n + 1) n [] (Nat.lt_succ_self n)
  have : Nat.toDigits 10 n = l := by simpa [Nat.toDigits] using hl
  rw [this]
  exact ⟨hdig, hval⟩

theorem toDigits_injective (n m : Nat) (h : Nat.toDigits 10 n = Nat.toDigits 10 m) : n = m := by
  rw [← (toDigits_spec n).2, ← (toDigits_spec m).2, h]

theorem formatInt_injective (a b : Int) (h : formatInt a = formatInt b) : a = b := by
  have hminus : ('-' : Char).isDigit = false := by decide
  have hd := congrArg String.data h
  cases a with
  | ofNat n =>
    cases b with
    | ofNat m =>
      simp only [formatInt] at hd
      rw [toDigits_injective n m hd]
    | negSucc m =>
      simp only [formatInt] at hd
      have := (toDigits_spec n).1 '-' (by rw [hd]; exact List.mem_cons_self _ _)
      rw [hminus] at this
      exact absurd this (by decide)
  | negSucc n =>
    cases b with
    | ofNat m =>
      simp only [formatInt] at hd
      have := (toDigits_spec m).1 '-' (by rw [← hd]; exact List.mem_cons_self _ _)
      rw [hminus] at this
      exact absurd this (by decide)
    | negSucc m =>
      simp only [formatInt, List.cons.injEq, true_and] at hd
      have := toDigits_injective (n + 1) (m + 1) hd
      have hnm : n = m := by omega
      rw [hnm]

theorem hash_not_mem_formatInt (a : Int) : '#' ∉ (formatInt a).data := by
  have hhash : ('#' : Char).isDigit = false := by decide
  intro hmem
  cases a with
  | ofNat n =>
    simp only [formatInt] at hmem
    have := (toDigits_spec n).1 '#' hmem
    rw [hhash] at this
    exact absurd this (by decide)
  | negSucc n =>
    simp only [formatInt, List.mem_cons] at hmem
    rcases hmem with h | h
    · exact absurd h (by decide)
    · have := (toDigits_spec (n + 1)).1 '#' h
      rw [hhash] at this
      exact absurd this (by decide)

/-- A text is split in one way only at its last separator. -/
theorem append_sep_inj (c : Char) : ∀ (l1 l2 t1 t2 : List Char), c ∉ t1 → c ∉ t2 →
    l1 ++ c :: t1 = l2 ++ c :: t2 → l1 = l2 ∧ t1 = t2 := by
  intro l1
  induction l1 with
  | nil =>
    intro l2 t1 t2 h1 h2 h
    cases l2 with
    | nil => simpa using h
    | cons a l2 =>
      simp only [List.nil_append, List.cons_append, List.cons.injEq] at h
      exact absurd (h.2 ▸ (List.mem_append_right l2 (List.mem_cons_self c t2))) h1
  | cons a l1 ih =>
    intro l2 t1 t2 h1 h2 h
    cases l2 with
    | nil =>
      simp only [List.nil_append, List.cons_append, List.cons.injEq] at h
      exact absurd (h.2 ▸ (List.mem_append_right l1 (List.mem_cons_self c t1))) h2
    | cons b l2 =>
      simp only [List.cons_append, List.cons.injEq] at h
      obtain ⟨hl, ht⟩ := ih l2 t1 t2 h1 h2 h.2
      exact ⟨by rw [h.1, hl], ht⟩

theorem insertId_eq_iff (k1 k2 : String) (n1 n2 : Int) :
    insertId k1 n1 = insertId k2 n2 ↔ k1 = k2 ∧ n1 = n2 := by
  constructor
  · intro h
    have hd : k1.data ++ '#' :: (formatInt n1).data = k2.data ++ '#' :: (formatInt n2).data := by
      have := congrArg String.data h
      simpa [insertId, String.data_append] using this
    obtain ⟨hk, hn⟩ := append_sep_inj '#' _ _ _ _ (hash_not_mem_formatInt n1)
      (hash_not_mem_formatInt n2) hd
    exact ⟨String.ext hk, formatInt_injective n1 n2 (String.ext hn)⟩
  · rintro ⟨rfl, rfl⟩
    rfl

/-- The rows that the loop of IngestToBigQuery adds: one per entity, in order,
with the identifier built from the key of the entity and its clock reading. -/
theorem ingestRows_spec (d : Deps) (clock : Nat → Int) (orders : Nat → List String)
    (exclude : String) : ∀ (es : List Entity) (i : Nat) (acc rows : List InsertRow),
    ingestRows d clock orders exclude i es acc = .ok rows →
    ∃ tail, rows = acc ++ tail ∧
      ∀ (j : Nat) (e : Entity), es[j]? = some e →
        ∃ r, tail[j]? = some r ∧ r.InsertID = insertId e.KeyEncode (clock (2 * (i + j) + 1)) := by
  intro es
  induction es with
  | nil =>
    intro i acc rows h
    simp only [ingestRows, Except.ok.injEq] at h
    exact ⟨[], by simp [h], by intro j e hj; simp at hj⟩
  | cons e0 es ih =>
    intro i acc rows h
    unfold ingestRows at h
    cases hrow : entityToRow d (clock (2 * i)) (orders i) e0 exclude with
    | error err => rw [hrow] at h; exact absurd h (by simp)
    | ok row =>
      rw [hrow] at h
      obtain ⟨tail, htail, hids⟩ := ih (i + 1) _ rows h
      refine ⟨⟨insertId e0.KeyEncode (clock (2 * i + 1)), row⟩ :: tail, by simp [htail], ?_⟩
      intro j e hj
      cases j with
      | zero =>
        simp only [List.getElem?_cons_zero, Option.some.injEq] at hj
        subst hj
        exact ⟨⟨insertId e0.KeyEncode (clock (2 * i + 1)), row⟩, by simp, rfl⟩
      | succ j =>
        simp only [List.getElem?_cons_succ] at hj
        obtain ⟨r, hr, hid⟩ := hids j e hj
        refine ⟨r, by simpa using hr, ?_⟩
        rw [hid]
        congr 3
        omega

/-- The loop over the entities stops with the error of the first record whose
property map cannot be read. -/
theorem ingestRows_error (d : Deps) (clock : Nat → Int) (orders : Nat → List String)
    (exclude : String) (e : Entity) (post : List Entity) (err : String)
    (he : e.Map = .error err) : ∀ (pre : List Entity) (i : Nat) (acc : List InsertRow),
    (∀ x ∈ pre, ∃ row0, x.Map = .ok row0) →
    ingestRows d clock orders exclude i (pre ++ e :: post) acc = .error err := by
  intro pre
  induction pre with
  | nil =>
    intro i acc _
    simp [ingestRows, entityToRow, he]
  | cons x pre ih =>
    intro i acc hpre
    obtain ⟨row0, hx⟩ := hpre x (List.mem_cons_self _ _)
    simp only [List.cons_append, ingestRows, entityToRow_eq d _ _ x exclude row0 hx]
    exact ih (i + 1) _ (fun y hy => hpre y (List.mem_cons_of_mem _ hy))

theorem names_addStat_sublist (ks : StatByKind) (acc : TableSchema) (s : StatByProperty) :
    (addStat ks acc s).Fields.map TableFieldSchema.Name = acc.Fields.map TableFieldSchema.Name ∨
      (addStat ks acc s).Fields.map TableFieldSchema.Name
        = acc.Fields.map TableFieldSchema.Name ++ [s.Name] := by
  unfold addStat
  by_cases h1 : containsField acc s.Name = true
  · left; simp [h1]
  · have h1f : containsField acc s.Name = false := by simpa using h1
    by_cases h2 : fieldType s.Typ = ""
    · left; simp [h1f, newField, h2]
    · right; simp [h1f, newField, h2]

/-- The field names are a subsequence of the stat names. -/
theorem names_schemaAfter_sublist (ks : StatByKind) (stats : List StatByProperty) :
    List.Sublist ((schemaAfter ks stats).Fields.map TableFieldSchema.Name)
      (stats.map StatByProperty.Name) := by
  induction stats using List.reverseRecOn with
  | nil => simp [schemaAfter]
  | append_singleton stats s ih =>
    rw [schemaAfter_snoc, List.map_append]
    rcases names_addStat_sublist ks (schemaAfter ks stats) s with h | h
    · rw [h]
      exact ih.trans (List.sublist_append_left _ _)
    · rw [h]
      exact List.Sublist.append ih (List.Sublist.refl _)

/-! ## Schema inference: the claims -/

/-- C1 (defect of the code): for a stat of declared type "Integer" SchemaForKind
emits a field whose type is the literal "Integer", which is none of STRING,
TIMESTAMP, BOOLEAN, FLOAT, INTEGER, while the other rows of the table are as
the specification lists them. -/
theorem C1_integer_maps_to_mixed_case_literal :
    SchemaForKind "K" (.ok ⟨1, "K"⟩) [.ok ⟨1, "Integer", "n"⟩]
        = .ok ⟨[⟨"n", "Integer", ""⟩]⟩ ∧
      "Integer" ∉ targetTypes ∧
      (∀ t ∈ ["Blob", "BlobKey", "Category", "Email", "IM", "Key", "Link", "PhoneNumber",
          "PostalAddress", "Rating", "ShortBlob", "String"], fieldType t = "STRING") ∧
      fieldType "Date/Time" = "TIMESTAMP" ∧ fieldType "Boolean" = "BOOLEAN" ∧
      fieldType "Float" = "FLOAT" := by
  refine ⟨rfl, by decide, by decide, rfl, rfl, rfl⟩

/-- C2 as stated fails: the first stat named "n" has an unmapped declared type,
yet the schema has a field named "n", built from the second stat. -/
theorem C2_counterexample :
    SchemaForKind "K" (.ok ⟨1, "K"⟩) [.ok ⟨1, "Unknown", "n"⟩, .ok ⟨1, "String", "n"⟩]
        = .ok ⟨[⟨"n", "STRING", ""⟩]⟩ ∧
      ([⟨1, "Unknown", "n"⟩, ⟨1, "String", "n"⟩] : List StatByProperty).find?
          (fun s => decide (s.Name = "n")) = some ⟨1, "Unknown", "n"⟩ ∧
      fieldType "Unknown" = "" := by
  refine ⟨rfl, rfl, rfl⟩

/-- C2 (amended): SchemaForKind keeps, per property name, the first stat whose
declared type is mapped. The schema has a field named n exactly when some stat
named n has a mapped type; every field has the type and mode derived from the
first such stat of its name; the number of fields is the number of distinct
names that have a stat with a mapped type; a name whose stats all have unmapped
types has no field. -/
theorem C2_first_mapped_stat_per_name (kind : String) (ks : StatByKind)
    (stats : List StatByProperty) :
    ∃ schema, SchemaForKind kind (.ok ks) (stats.map Except.ok) = .ok schema ∧
      (∀ n, (∃ f ∈ schema.Fields, f.Name = n) ↔
        ∃ s ∈ stats, s.Name = n ∧ fieldType s.Typ ≠ "") ∧
      (∀ f ∈ schema.Fields, ∃ s,
        stats.find? (fun s => decide (s.Name = f.Name ∧ fieldType s.Typ ≠ "")) = some s ∧
          f.Typ = fieldType s.Typ ∧ f.Mode = fieldMode ks s) ∧
      schema.Fields.length =
        ((stats.filter (fun s => decide (fieldType s.Typ ≠ ""))).map
          StatByProperty.Name).toFinset.card ∧
      (∀ n, (∀ s ∈ stats, s.Name = n → fieldType s.Typ = "") →
        ∀ f ∈ schema.Fields, f.Name ≠ n) := by
  refine ⟨schemaAfter ks stats, SchemaForKind_ok kind ks stats, ?_, ?_, ?_, ?_⟩
  · intro n
    rw [← name_mem_schemaAfter ks stats n]
    simp [List.mem_map]
  · intro f hf
    obtain ⟨s, hs, rfl⟩ := field_of_schemaAfter ks stats f hf
    exact ⟨s, hs, rfl, rfl⟩
  · rw [← List.length_map (schemaAfter ks stats).Fields TableFieldSchema.Name,
      ← List.toFinset_card_of_nodup (nodup_schemaAfter ks stats)]
    congr 1
    ext n
    simp only [List.mem_toFinset]
    rw [name_mem_schemaAfter]
    simp only [List.mem_map, List.mem_filter, decide_eq_true_eq]
    constructor
    · rintro ⟨s, hs, hn, ht⟩
      exact ⟨s, ⟨hs, ht⟩, hn⟩
    · rintro ⟨s, ⟨hs, ht⟩, hn⟩
      exact ⟨s, hs, hn, ht⟩
  · intro n hall f hf hn
    have hmem : n ∈ (schemaAfter ks stats).Fields.map TableFieldSchema.Name :=
      List.mem_map.mpr ⟨f, hf, hn⟩
    obtain ⟨s, hs, hsn, ht⟩ := (name_mem_schemaAfter ks stats n).mp hmem
    exact ht (hall s hs hsn)

/-- C3: when the stats have pairwise distinct names, every stat with a mapped
declared type has a field of its name, every field of that name has the mapped
type, and its mode is "REPEATED" exactly when the stat count is strictly greater
than the entity count of the kind and is empty otherwise; kind count 10 with
(a, String, 10) and (tags, String, 25) gives a: STRING with empty mode and
tags: STRING with mode REPEATED. -/
theorem C3_repeated_iff_count_exceeds :
    (∀ (kind : String) (ks : StatByKind) (stats : List StatByProperty),
      (stats.map StatByProperty.Name).Nodup →
      ∀ s ∈ stats, fieldType s.Typ ≠ "" →
      ∃ schema, SchemaForKind kind (.ok ks) (stats.map Except.ok) = .ok schema ∧
        (∃ f ∈ schema.Fields, f.Name = s.Name) ∧
        ∀ f ∈ schema.Fields, f.Name = s.Name →
          f.Typ = fieldType s.Typ ∧ (f.Mode = "REPEATED" ↔ s.Count > ks.Count) ∧
            (¬ s.Count > ks.Count → f.Mode = "")) ∧
    SchemaForKind "K" (.ok ⟨10, "K"⟩) [.ok ⟨10, "String", "a"⟩, .ok ⟨25, "String", "tags"⟩]
      = .ok ⟨[⟨"a", "STRING", ""⟩, ⟨"tags", "STRING", "REPEATED"⟩]⟩ := by
  refine ⟨?_, rfl⟩
  intro kind ks stats hd s hs hm
  refine ⟨schemaAfter ks stats, SchemaForKind_ok kind ks stats, ?_, ?_⟩
  · have := (name_mem_schemaAfter ks stats s.Name).mpr ⟨s, hs, rfl, hm⟩
    simpa [List.mem_map] using this
  · intro f hf hn
    obtain ⟨s0, h0, rfl⟩ := field_of_schemaAfter ks stats f hf
    have hmem := List.mem_of_find?_eq_some h0
    have hp := List.find?_some h0
    simp only [decide_eq_true_eq] at hp
    have hname : s0.Name = s.Name := hp.1.trans hn
    have heq : s0 = s := List.inj_on_of_nodup_map hd hmem hs hname
    subst heq
    refine ⟨rfl, ?_, ?_⟩
    · simp only [newField, fieldMode]
      by_cases hc : s0.Count > ks.Count
      · simp [hc]
      · simp [hc]
    · intro hc
      simp [newField, fieldMode, hc]

/-- Witness of C3: the scenario of the specification, obtained from the general
statement at the stat tags. -/
theorem C3_witness :
    ∃ schema, SchemaForKind "K" (.ok ⟨10, "K"⟩)
        (([⟨10, "String", "a"⟩, ⟨25, "String", "tags"⟩] : List StatByProperty).map Except.ok)
          = .ok schema ∧
      (∃ f ∈ schema.Fields, f.Name = "tags") ∧
      ∀ f ∈ schema.Fields, f.Name = "tags" →
        f.Typ = fieldType "String" ∧ (f.Mode = "REPEATED" ↔ (25 : Int) > 10) ∧
          (¬ (25 : Int) > 10 → f.Mode = "") :=
  C3_repeated_iff_count_exceeds.1 "K" ⟨10, "K"⟩
    [⟨10, "String", "a"⟩, ⟨25, "String", "tags"⟩] (by decide)
    ⟨25, "String", "tags"⟩ (by decide) (by decide)

/-- C9: the field names of the schema returned by SchemaForKind are pairwise
distinct, and so are the field names of the partially built schema after every
processed prefix of the stats, from which the loop continues. -/
theorem C9_field_names_pairwise_distinct (kind : String) (ks : StatByKind)
    (stats : List StatByProperty) :
    (∃ schema, SchemaForKind kind (.ok ks) (stats.map Except.ok) = .ok schema ∧
      (schema.Fields.map TableFieldSchema.Name).Nodup) ∧
    ∀ pre post, stats = pre ++ post →
      ∃ mid, schemaLoop kind ks (pre.map Except.ok) ⟨[]⟩ = .ok mid ∧
        (mid.Fields.map TableFieldSchema.Name).Nodup ∧
        SchemaForKind kind (.ok ks) (stats.map Except.ok)
          = schemaLoop kind ks (post.map Except.ok) mid := by
  refine ⟨⟨schemaAfter ks stats, SchemaForKind_ok kind ks stats, nodup_schemaAfter ks stats⟩, ?_⟩
  intro pre post hsplit
  refine ⟨schemaAfter ks pre, schemaLoop_ok kind ks pre _, nodup_schemaAfter ks pre, ?_⟩
  subst hsplit
  rw [SchemaForKind_ok, schemaLoop_ok]
  simp [schemaAfter, List.foldl_append]

/-! ## Record normalisation: the claims -/

/-- C4 as stated fails: with the exclusion pattern "^__timestamp__$" the name
"__timestamp__" matches the effective pattern, yet the returned row has that
key, because the timestamp is added after the exclusion loop. -/
theorem C4_counterexample :
    entityToRow exampleDeps 0 ["a"] ⟨"k1", "Kind", .ok [("a", .str "x")]⟩ "^__timestamp__$"
        = .ok [("__timestamp__", .str "2014-05-01T12:00:00Z"), ("a", .str "x")] ∧
      excludeMatcher exampleDeps "^__timestamp__$" "__timestamp__" = true ∧
      mapGet [("__timestamp__", Value.str "2014-05-01T12:00:00Z"), ("a", Value.str "x")]
        "__timestamp__" = some (.str "2014-05-01T12:00:00Z") := by
  refine ⟨rfl, by decide, rfl⟩

/-- C4 (amended): for a record whose property map can be read, any exclusion
pattern and any allowed iteration order, a name that matches the effective
exclusion pattern is not a key of the returned row, provided the name is not
"__timestamp__" and is not the sanitised name of a considered key that does not
match the pattern. -/
theorem C4_excluded_name_absent (d : Deps) (now : Int) (order : List String) (e : Entity)
    (exclude : String) (row0 : GoMap) (n : String)
    (hmap : e.Map = .ok row0) (horder : RangeOrder row0 order)
    (hn : excludeMatcher d exclude n = true) (hts : n ≠ "__timestamp__")
    (hsan : ∀ k ∈ order, excludeMatcher d exclude k = false → d.MakeFieldName k ≠ n) :
    ∃ row, entityToRow d now order e exclude = .ok row ∧
      mapGet row n = none ∧ n ∉ mapKeys row := by
  refine ⟨_, entityToRow_eq d now order e exclude row0 hmap, ?_⟩
  have hp : mapGet row0 n = none ∨ n ∈ order := by
    by_cases h : n ∈ mapKeys row0
    · exact Or.inr (horder.2 n h)
    · exact Or.inl ((mapGet_eq_none_iff row0 n).mpr h)
  have hnone := mapGet_foldl_excluded d (excludeMatcher d exclude) n hn order row0 hp hsan
  have hfin : mapGet (mapSet (order.foldl (stepRow d (excludeMatcher d exclude)) row0)
      "__timestamp__" (.str (d.FormatRFC3339 now))) n = none := by
    rw [mapGet_mapSet, if_neg hts]
    exact hnone
  exact ⟨hfin, (mapGet_eq_none_iff _ n).mp hfin⟩

/-- Witness of C4: the record with the properties a and secret and the pattern
"^secret$"; the row has no key secret. -/
theorem C4_witness :
    ∃ row, entityToRow exampleDeps 0 ["a", "secret"]
        ⟨"k1", "Kind", .ok [("a", .str "x"), ("secret", .str "y")]⟩ "^secret$" = .ok row ∧
      mapGet row "secret" = none ∧ "secret" ∉ mapKeys row :=
  C4_excluded_name_absent exampleDeps 0 ["a", "secret"]
    ⟨"k1", "Kind", .ok [("a", .str "x"), ("secret", .str "y")]⟩ "^secret$"
    [("a", .str "x"), ("secret", .str "y")] "secret" rfl (by decide) (by decide) (by decide)
    (by decide)

/-- C10: for a record whose property map can be read, any exclusion pattern and
any iteration order, entityToRow returns a row that has the key "__timestamp__"
exactly once, and its value is the RFC 3339 rendering of the clock reading,
whatever the record holds. -/
theorem C10_timestamp_exactly_once (d : Deps) (now : Int) (order : List String) (e : Entity)
    (exclude : String) (row0 : GoMap) (hmap : e.Map = .ok row0) :
    ∃ row, entityToRow d now order e exclude = .ok row ∧
      (mapKeys row).count "__timestamp__" = 1 ∧
      mapGet row "__timestamp__" = some (.str (d.FormatRFC3339 now)) := by
  refine ⟨_, entityToRow_eq d now order e exclude row0 hmap, count_mapKeys_mapSet _ _ _, ?_⟩
  rw [mapGet_mapSet, if_pos rfl]

/-- Witness of C10: a record that has a property named "__timestamp__" itself;
the value is replaced by the rendering of the clock reading. -/
theorem C10_witness :
    ∃ row, entityToRow exampleDeps 0 ["__timestamp__", "a"]
        ⟨"k1", "Kind", .ok [("a", .str "x"), ("__timestamp__", .int 7)]⟩ "" = .ok row ∧
      (mapKeys row).count "__timestamp__" = 1 ∧
      mapGet row "__timestamp__" = some (.str (exampleDeps.FormatRFC3339 0)) :=
  C10_timestamp_exactly_once exampleDeps 0 ["__timestamp__", "a"]
    ⟨"k1", "Kind", .ok [("a", .str "x"), ("__timestamp__", .int 7)]⟩ ""
    [("a", .str "x"), ("__timestamp__", .int 7)] rfl

/-- C6 as stated fails on the empty sequence: `json.Marshal` renders it as "[]",
marshalField returns the empty string, which is not a JSON text. -/
theorem C6_counterexample :
    marshalField (fun _ => Except.ok "[]") [] = ("", none) ∧ ("" : String) ≠ "[]" := by
  refine ⟨rfl, by decide⟩

/-- C6 (amended): for a non-empty sequence whose first element is not a tagged
blob wrapper and that `json.Marshal` can encode, marshalField returns the
encoding of the whole sequence and a nil error; for the empty sequence it
returns the empty string and a nil error. -/
theorem C6_marshalField_encodes (marshal : List Value → Except String String)
    (f : Value) (rest : List Value) (text : String)
    (hfirst : taggedBlob f = false) (henc : marshal (f :: rest) = .ok text) :
    marshalField marshal (f :: rest) = (text, none) ∧
      marshalField marshal [] = ("", none) := by
  refine ⟨?_, rfl⟩
  have hb : firstIsBlob f = false := by rw [firstIsBlob_eq_taggedBlob]; exact hfirst
  simp [marshalField, hb, henc]

/-- Witness of C6: a sequence of one integer, which `json.Marshal` renders as
"[1]". -/
theorem C6_witness :
    marshalField (fun _ => Except.ok "[1]") [Value.int 1] = ("[1]", none) ∧
      marshalField (fun _ => Except.ok "[1]") [] = ("", none) :=
  C6_marshalField_encodes (fun _ => Except.ok "[1]") (.int 1) [] "[1]" rfl rfl

/-- C5 as stated fails for the final row: a property named "__timestamp__" passes
the empty exclusion and holds a tagged blob wrapper, yet the returned row holds
the rendering of the clock reading under that name, not "(blob)". -/
theorem C5_counterexample :
    entityToRow exampleDeps 0 ["__timestamp__"]
        ⟨"k1", "Kind", .ok [("__timestamp__", .obj [("type", .str "blob"), ("value", .str "AA")])]⟩
        "" = .ok [("__timestamp__", .str "2014-05-01T12:00:00Z")] ∧
      excludeMatcher exampleDeps "" "__timestamp__" = false ∧
      exampleDeps.MakeFieldName "__timestamp__" = "__timestamp__" ∧
      blobValued (.obj [("type", .str "blob"), ("value", .str "AA")]) = true ∧
      ("2014-05-01T12:00:00Z" : String) ≠ "(blob)" := by
  refine ⟨rfl, by decide, rfl, by decide, by decide⟩

/-- C5 (amended): for every property k that passes the exclusion and whose value
is a tagged blob wrapper or a non-empty sequence starting with one, the body of
the loop stores exactly "(blob)" under MakeFieldName(k), whatever the map holds
otherwise; the returned row still holds "(blob)" under that name provided the
name is not "__timestamp__", is left unchanged by MakeFieldName and passes the
exclusion, and no other considered key apart from that name passes the exclusion
and is sanitised to k or to MakeFieldName(k); and marshalField returns
("(blob)", nil) for every sequence whose first element is a tagged blob
wrapper. -/
theorem C5_blob_placeholder (d : Deps) (exclude : String) (k : String) (v : Value)
    (hex : excludeMatcher d exclude k = false) (hblob : blobValued v = true) :
    (∀ row1 : GoMap, mapGet row1 k = some v →
      ∃ row2, rangeBody d (excludeMatcher d exclude) row1 k v = .ok row2 ∧
        mapGet row2 (d.MakeFieldName k) = some (.str "(blob)")) ∧
    (∀ (now : Int) (order : List String) (e : Entity) (row0 : GoMap),
      e.Map = .ok row0 → RangeOrder row0 order → mapGet row0 k = some v →
      d.MakeFieldName k ≠ "__timestamp__" →
      d.MakeFieldName (d.MakeFieldName k) = d.MakeFieldName k →
      excludeMatcher d exclude (d.MakeFieldName k) = false →
      (∀ k1 ∈ order, k1 ≠ k → k1 ≠ d.MakeFieldName k →
        excludeMatcher d exclude k1 = false →
        d.MakeFieldName k1 ≠ k ∧ d.MakeFieldName k1 ≠ d.MakeFieldName k) →
      ∃ row, entityToRow d now order e exclude = .ok row ∧
        mapGet row (d.MakeFieldName k) = some (.str "(blob)")) ∧
    (∀ marshal f rest, taggedBlob f = true →
      marshalField marshal (f :: rest) = ("(blob)", none)) := by
  have hnv := fieldValue_blobValued d.Marshal v hblob
  refine ⟨?_, ?_, ?_⟩
  · intro row1 h1
    refine ⟨_, rangeBody_eq d _ row1 k v h1, ?_⟩
    rw [mapGet_stepRow, h1]
    simp [hex, hnv]
  · intro now order e row0 hmap horder hk hts hcanon hmex hothers
    obtain ⟨row, hrow, hfin⟩ := entityToRow_property d now order e exclude row0 k v hmap horder
      hk hex hts hcanon hmex hothers
    refine ⟨row, hrow, ?_⟩
    rcases hfin with h | ⟨_, _, h⟩
    · rw [h, hnv]
    · rw [h, hnv]
      rfl
  · intro marshal f rest hf
    exact marshalField_blob marshal f rest hf

/-- Witness of C5: the scenario of the specification, the record with a: "x" and
a tagged blob under bin, with the empty exclusion pattern. -/
theorem C5_witness :
    (∀ row1 : GoMap,
      mapGet row1 "bin" = some (.obj [("type", .str "blob"), ("value", .str "AA")]) →
      ∃ row2, rangeBody exampleDeps (excludeMatcher exampleDeps "") row1 "bin"
          (.obj [("type", .str "blob"), ("value", .str "AA")]) = .ok row2 ∧
        mapGet row2 (exampleDeps.MakeFieldName "bin") = some (.str "(blob)")) ∧
    (∃ row, entityToRow exampleDeps 0 ["a", "bin"]
        ⟨"k1", "Kind",
          .ok [("a", .str "x"), ("bin", .obj [("type", .str "blob"), ("value", .str "AA")])]⟩
        "" = .ok row ∧
      mapGet row (exampleDeps.MakeFieldName "bin") = some (.str "(blob)")) ∧
    (∀ marshal f rest, taggedBlob f = true →
      marshalField marshal (f :: rest) = ("(blob)", none)) :=
  have h := C5_blob_placeholder exampleDeps "" "bin"
    (.obj [("type", .str "blob"), ("value", .str "AA")]) (by decide) (by decide)
  ⟨h.1,
    h.2.1 0 ["a", "bin"]
      ⟨"k1", "Kind",
        .ok [("a", .str "x"), ("bin", .obj [("type", .str "blob"), ("value", .str "AA")])]⟩
      [("a", .str "x"), ("bin", .obj [("type", .str "blob"), ("value", .str "AA")])]
      rfl (by decide) rfl (by decide) rfl (by decide) (by decide),
    h.2.2⟩

/-! ## Streaming ingestion: the claims -/

/-- C7: when the rows are built, the request is sent and the response decodes,
IngestToBigQuery returns nil exactly when the decoded list of insert errors is
empty; otherwise it returns one error whose text is "Insert errors when
ingesting:\n" followed, for each entry in order, by "Errors at field index
<index>: " and "- <detail>\n" for each of its details in order. -/
theorem C7_insert_errors_reported (d : Deps) (r : Remote) (clock : Nat → Int)
    (orders : Nat → List String) (project dataset : String) (first : Entity)
    (others : List Entity) (exclude : String) (rows : List InsertRow) (payload : String)
    (resp : Response) (result : List InsertErrors)
    (hrows : ingestRows d clock orders exclude 0 (first :: others) [] = .ok rows)
    (hpay : r.MarshalRequest ⟨InsertAllRequestKind, rows⟩ = .ok payload)
    (hclient : r.NewClient = .ok ())
    (hpost : r.Post (insertAllURL project dataset first.KeyKind) payload = .ok resp)
    (hcheck : r.CheckResponse resp = none)
    (hdec : r.Decode resp = .ok result) :
    ((IngestToBigQuery d r clock orders project dataset (first :: others) exclude).err = none
        ↔ result = []) ∧
      (result ≠ [] →
        (IngestToBigQuery d r clock orders project dataset (first :: others) exclude).err
          = some (insertErrorsSpecText r.FormatDetail result)) ∧
      (∀ det, insertErrorsSpecText r.FormatDetail [⟨0, [det]⟩]
        = "Insert errors when ingesting:\nErrors at field index 0: - "
            ++ r.FormatDetail det ++ "\n") := by
  have hrun : (IngestToBigQuery d r clock orders project dataset (first :: others) exclude).err
      = if result.length ≠ 0 then some (insertErrorsText r.FormatDetail result) else none := by
    simp only [IngestToBigQuery, hrows, hpay, hclient, hpost, hcheck, hdec]
    split <;> rfl
  rw [hrun, insertErrorsText_eq_spec]
  refine ⟨?_, ?_, ?_⟩
  · cases result <;> simp
  · cases result <;> simp
  · intro det
    have h0 : formatInt 0 = "0" := by decide
    simp only [insertErrorsSpecText, List.map_cons, List.map_nil, join_cons, h0]
    simp only [String.join, List.foldl_nil, String.append_empty, String.append_assoc]
    rw [← String.append_assoc, ← String.append_assoc, ← String.append_assoc,
      ← String.append_assoc]
    congr 1

/-- Witness of C7: the scenario of the specification, one insert error at row
index 0 with the detail of reason "invalid". -/
theorem C7_witness :
    ((IngestToBigQuery exampleDeps exampleRemote (fun _ => 0) (fun _ => ["a"]) "p" "ds"
        (⟨"k1", "Kind", .ok [("a", .str "x")]⟩ :: []) "").err = none
        ↔ [(⟨0, [⟨"", "", "", "invalid"⟩]⟩ : InsertErrors)] = []) ∧
      ([(⟨0, [⟨"", "", "", "invalid"⟩]⟩ : InsertErrors)] ≠ [] →
        (IngestToBigQuery exampleDeps exampleRemote (fun _ => 0) (fun _ => ["a"]) "p" "ds"
          (⟨"k1", "Kind", .ok [("a", .str "x")]⟩ :: []) "").err
          = some (insertErrorsSpecText exampleRemote.FormatDetail
              [⟨0, [⟨"", "", "", "invalid"⟩]⟩])) ∧
      (∀ det, insertErrorsSpecText exampleRemote.FormatDetail [⟨0, [det]⟩]
        = "Insert errors when ingesting:\nErrors at field index 0: - "
            ++ exampleRemote.FormatDetail det ++ "\n") :=
  C7_insert_errors_reported exampleDeps exampleRemote (fun _ => 0) (fun _ => ["a"]) "p" "ds"
    ⟨"k1", "Kind", .ok [("a", .str "x")]⟩ [] ""
    [⟨"k1#0", [("__timestamp__", .str "2014-05-01T12:00:00Z"), ("a", .str "x")]⟩]
    ("\x7b\"kind\":\"bigquery#tableDataInsertAllRequest\",\"rows\":[\x7b\"insertId\":\"k1#0\","
      ++ "\"json\":\x7b\"__timestamp__\":\"2014-05-01T12:00:00Z\",\"a\":\"x\"\x7d\x7d]\x7d")
    ⟨200, "\x7b\"insertErrors\":[\x7b\"index\":0,"
      ++ "\"errors\":[\x7b\"reason\":\"invalid\"\x7d]\x7d]\x7d"⟩
    [⟨0, [⟨"", "", "", "invalid"⟩]⟩] rfl rfl rfl rfl rfl rfl

/-- C8 as stated fails: two records of one batch that carry the same key and
are stamped at the same clock reading receive the same insertId. -/
theorem C8_counterexample :
    ingestRows exampleDeps (fun _ => 5) (fun _ => ["a"]) "" 0
        [⟨"k1", "Kind", .ok [("a", .str "x")]⟩, ⟨"k1", "Kind", .ok [("a", .str "y")]⟩] []
      = .ok [⟨"k1#5", [("__timestamp__", .str "2014-05-01T12:00:00Z"), ("a", .str "x")]⟩,
          ⟨"k1#5", [("__timestamp__", .str "2014-05-01T12:00:00Z"), ("a", .str "y")]⟩] := by
  rfl

/-- C8 (amended): the insertId of a row is the encoded key, "#" and the clock
reading in nanoseconds, and two rows, of one batch or of two batches, receive
the same insertId exactly when they have the same encoded key and the same
clock reading; rows that differ in key or in reading never collide. -/
theorem C8_insertId_collision_iff (d : Deps) (exclude1 exclude2 : String)
    (clock1 clock2 : Nat → Int) (orders1 orders2 : Nat → List String)
    (batch1 batch2 : List Entity) (rows1 rows2 : List InsertRow)
    (h1 : ingestRows d clock1 orders1 exclude1 0 batch1 [] = .ok rows1)
    (h2 : ingestRows d clock2 orders2 exclude2 0 batch2 [] = .ok rows2)
    (i j : Nat) (e1 e2 : Entity) (hi : batch1[i]? = some e1) (hj : batch2[j]? = some e2) :
    ∃ r1 r2, rows1[i]? = some r1 ∧ rows2[j]? = some r2 ∧
      r1.InsertID = insertId e1.KeyEncode (clock1 (2 * i + 1)) ∧
      r2.InsertID = insertId e2.KeyEncode (clock2 (2 * j + 1)) ∧
      (r1.InsertID = r2.InsertID ↔
        e1.KeyEncode = e2.KeyEncode ∧ clock1 (2 * i + 1) = clock2 (2 * j + 1)) := by
  obtain ⟨t1, ht1, hid1⟩ := ingestRows_spec d clock1 orders1 exclude1 batch1 0 [] rows1 h1
  obtain ⟨t2, ht2, hid2⟩ := ingestRows_spec d clock2 orders2 exclude2 batch2 0 [] rows2 h2
  obtain ⟨r1, hr1, e1id⟩ := hid1 i e1 hi
  obtain ⟨r2, hr2, e2id⟩ := hid2 j e2 hj
  simp only [List.nil_append] at ht1 ht2
  simp only [Nat.zero_add] at e1id e2id
  subst ht1 ht2
  refine ⟨r1, r2, hr1, hr2, e1id, e2id, ?_⟩
  rw [e1id, e2id]
  exact insertId_eq_iff _ _ _ _

/-- Witness of C8: two records of one batch with different keys, stamped at the
readings 1 and 3. -/
theorem C8_witness :
    ∃ r1 r2,
      ([⟨"k1#1", [("__timestamp__", .str "2014-05-01T12:00:00Z"), ("a", .str "x")]⟩,
        ⟨"k2#3", [("__timestamp__", .str "2014-05-01T12:00:00Z"), ("a", .str "y")]⟩]
          : List InsertRow)[0]? = some r1 ∧
      ([⟨"k1#1", [("__timestamp__", .str "2014-05-01T12:00:00Z"), ("a", .str "x")]⟩,
        ⟨"k2#3", [("__timestamp__", .str "2014-05-01T12:00:00Z"), ("a", .str "y")]⟩]
          : List InsertRow)[1]? = some r2 ∧
      r1.InsertID = insertId "k1" ((fun n : Nat => (n : Int)) (2 * 0 + 1)) ∧
      r2.InsertID = insertId "k2" ((fun n : Nat => (n : Int)) (2 * 1 + 1)) ∧
      (r1.InsertID = r2.InsertID ↔
        "k1" = "k2" ∧
          (fun n : Nat => (n : Int)) (2 * 0 + 1) = (fun n : Nat => (n : Int)) (2 * 1 + 1)) :=
  C8_insertId_collision_iff exampleDeps "" "" (fun n => (n : Int)) (fun n => (n : Int))
    (fun _ => ["a"]) (fun _ => ["a"])
    [⟨"k1", "Kind", .ok [("a", .str "x")]⟩, ⟨"k2", "Kind", .ok [("a", .str "y")]⟩]
    [⟨"k1", "Kind", .ok [("a", .str "x")]⟩, ⟨"k2", "Kind", .ok [("a", .str "y")]⟩]
    _ _ rfl rfl 0 1 ⟨"k1", "Kind", .ok [("a", .str "x")]⟩ ⟨"k2", "Kind", .ok [("a", .str "y")]⟩
    rfl rfl

/-! ## Error behaviour and ordering: the claims -/

/-- C11: entityToRow returns an error exactly when reading the record as a
property map fails, and then it returns that error; for a record whose property
map can be read it returns a row and a nil error, for every iteration order,
every property value and every exclusion pattern. marshalField never returns an
error: for a sequence that `json.Marshal` cannot encode it yields a nil error,
and the empty string unless the first element is a tagged blob wrapper. -/
theorem C11_error_only_from_map (d : Deps) (now : Int) (order : List String) (e : Entity)
    (exclude : String) :
    (∀ err, e.Map = .error err → entityToRow d now order e exclude = .error err) ∧
    (∀ row0, e.Map = .ok row0 → ∃ row, entityToRow d now order e exclude = .ok row) ∧
    ((∃ err, entityToRow d now order e exclude = .error err) ↔ ∃ err, e.Map = .error err) ∧
    (∀ marshal v, (marshalField marshal v).2 = none) ∧
    (∀ marshal f rest err, marshal (f :: rest) = .error err → taggedBlob f = false →
      marshalField marshal (f :: rest) = ("", none)) := by
  have herr : ∀ err, e.Map = .error err → entityToRow d now order e exclude = .error err := by
    intro err h
    simp [entityToRow, h]
  refine ⟨herr, ?_, ?_, ?_, ?_⟩
  · intro row0 h
    exact ⟨_, entityToRow_eq d now order e exclude row0 h⟩
  · constructor
    · rintro ⟨err, h⟩
      cases hm : e.Map with
      | error err0 => exact ⟨err0, rfl⟩
      | ok row0 =>
        rw [entityToRow_eq d now order e exclude row0 hm] at h
        exact absurd h (by simp)
    · rintro ⟨err, h⟩
      exact ⟨err, herr err h⟩
  · intro marshal v
    exact marshalField_err marshal v
  · intro marshal f rest err hm hf
    have hb : firstIsBlob f = false := by rw [firstIsBlob_eq_taggedBlob]; exact hf
    simp [marshalField, hb, hm]

/-- C13: on an empty batch IngestToBigQuery returns nil, builds no client and
issues no network call, for every project, dataset and exclusion pattern. -/
theorem C13_empty_batch_is_noop (d : Deps) (r : Remote) (clock : Nat → Int)
    (orders : Nat → List String) (project dataset exclude : String) :
    IngestToBigQuery d r clock orders project dataset [] exclude = ⟨none, []⟩ := by
  rfl

/-- C14: when the property map of some record of the batch cannot be read,
IngestToBigQuery returns the error of the first such record in batch order, the
one entityToRow returns for it, and neither builds a client nor posts anything. -/
theorem C14_first_normalisation_error_aborts (d : Deps) (r : Remote) (clock : Nat → Int)
    (orders : Nat → List String) (project dataset exclude : String)
    (pre post : List Entity) (e : Entity) (err : String)
    (hpre : ∀ x ∈ pre, ∃ row0, x.Map = .ok row0) (he : e.Map = .error err) :
    IngestToBigQuery d r clock orders project dataset (pre ++ e :: post) exclude
        = ⟨some err, []⟩ ∧
      entityToRow d (clock (2 * pre.length)) (orders pre.length) e exclude = .error err := by
  have hrows := ingestRows_error d clock orders exclude e post err he pre 0 [] hpre
  constructor
  · cases pre with
    | nil =>
      simp only [List.nil_append] at hrows ⊢
      simp only [IngestToBigQuery, hrows]
    | cons x pre =>
      simp only [List.cons_append] at hrows ⊢
      simp only [IngestToBigQuery, hrows]
  · simp [entityToRow, he]

/-- Witness of C14: a batch whose second record cannot be read. -/
theorem C14_witness :
    IngestToBigQuery exampleDeps exampleRemote (fun _ => 0) (fun _ => ["a"]) "p" "ds"
        ([⟨"k1", "Kind", .ok [("a", .str "x")]⟩] ++
          ⟨"k2", "Kind", .error "unreadable"⟩ :: [⟨"k3", "Kind", .ok [("a", .str "z")]⟩]) ""
        = ⟨some "unreadable", []⟩ ∧
      entityToRow exampleDeps ((fun _ => 0) (2 * [(⟨"k1", "Kind", .ok [("a", .str "x")]⟩ :
          Entity)].length))
        ((fun _ => ["a"]) [(⟨"k1", "Kind", .ok [("a", .str "x")]⟩ : Entity)].length)
        ⟨"k2", "Kind", .error "unreadable"⟩ "" = .error "unreadable" :=
  C14_first_normalisation_error_aborts exampleDeps exampleRemote (fun _ => 0) (fun _ => ["a"])
    "p" "ds" "" [⟨"k1", "Kind", .ok [("a", .str "x")]⟩] [⟨"k3", "Kind", .ok [("a", .str "z")]⟩]
    ⟨"k2", "Kind", .error "unreadable"⟩ "unreadable"
    (by intro x hx; simp only [List.mem_singleton] at hx; subst hx; exact ⟨_, rfl⟩) rfl

/-- C15: the field names of the schema returned by SchemaForKind form a
subsequence of the stat names in query order; hence, when the stats are ordered
by property name, the fields are in strictly increasing order of name. -/
theorem C15_field_order_follows_query (kind : String) (ks : StatByKind)
    (stats : List StatByProperty) :
    ∃ schema, SchemaForKind kind (.ok ks) (stats.map Except.ok) = .ok schema ∧
      List.Sublist (schema.Fields.map TableFieldSchema.Name) (stats.map StatByProperty.Name) ∧
      ((stats.map StatByProperty.Name).Sorted (fun a b => a ≤ b) →
        (schema.Fields.map TableFieldSchema.Name).Sorted (fun a b => a < b)) := by
  refine ⟨schemaAfter ks stats, SchemaForKind_ok kind ks stats,
    names_schemaAfter_sublist ks stats, ?_⟩
  intro hs
  have hsub : ((schemaAfter ks stats).Fields.map TableFieldSchema.Name).Sorted
      (fun a b => a ≤ b) := List.Pairwise.sublist (names_schemaAfter_sublist ks stats) hs
  exact List.Sorted.lt_of_le hsub (nodup_schemaAfter ks stats)

/-- Witness of C15: the stats a, a, b in name order give fields in strictly
increasing order of name. -/
theorem C15_witness :
    ∃ schema, SchemaForKind "K" (.ok ⟨1, "K"⟩)
        (([⟨1, "String", "a"⟩, ⟨1, "Integer", "a"⟩, ⟨1, "Float", "b"⟩] :
          List StatByProperty).map Except.ok) = .ok schema ∧
      (schema.Fields.map TableFieldSchema.Name).Sorted (fun a b => a < b) := by
  obtain ⟨schema, h1, _, h3⟩ := C15_field_order_follows_query "K" ⟨1, "K"⟩
    [⟨1, "String", "a"⟩, ⟨1, "Integer", "a"⟩, ⟨1, "Float", "b"⟩]
  refine ⟨schema, h1, h3 ?_⟩
  have hab : ("a" : String) ≤ "b" := le_of_lt (by rw [String.lt_iff_toList_lt]; decide)
  show List.Sorted (fun a b : String => a ≤ b) ["a", "a", "b"]
  refine List.Pairwise.cons ?_ (List.Pairwise.cons ?_ (List.Pairwise.cons ?_ List.Pairwise.nil))
  · intro x hx
    simp only [List.mem_cons, List.mem_singleton, List.not_mem_nil, or_false] at hx
    rcases hx with rfl | rfl
    · exact le_refl _
    · exact hab
  · intro x hx
    simp only [List.mem_singleton] at hx
    subst hx
    exact hab
  · intro x hx
    simp at hx

/-- C12 (defect of the code): with an exclusion pattern that is not a valid
regular expression, and likewise with the empty pattern, entityToRow falls back
to "^$", which the comment in the source describes as excluding none; the
pattern matches the empty name, so the property named "" of the record with the
properties "" and a is deleted and the returned row has no key for it. -/
theorem C12_fallback_deletes_empty_name :
    exampleDeps.Compile "(" = none ∧
      RangeOrder [("", .str "z"), ("a", .str "x")] ["", "a"] ∧
      entityToRow exampleDeps 0 ["", "a"] ⟨"k1", "Kind", .ok [("", .str "z"), ("a", .str "x")]⟩
          "(" = .ok [("__timestamp__", .str "2014-05-01T12:00:00Z"), ("a", .str "x")] ∧
      entityToRow exampleDeps 0 ["", "a"] ⟨"k1", "Kind", .ok [("", .str "z"), ("a", .str "x")]⟩
          "" = .ok [("__timestamp__", .str "2014-05-01T12:00:00Z"), ("a", .str "x")] ∧
      mapGet [("__timestamp__", Value.str "2014-05-01T12:00:00Z"), ("a", Value.str "x")]
        (exampleDeps.MakeFieldName "") = none := by
  refine ⟨rfl, by decide, rfl, rfl, rfl⟩

/-- Apart from the empty name the fallback excludes nothing: when the exclusion
pattern is empty, consists only of spaces, tabs and newlines, or is not a valid
regular expression, the returned row contains the sanitised name of every
property of the record whose name is not empty and whose sanitised name is not
empty and is left unchanged by MakeFieldName. -/
theorem fallback_keeps_nonempty_names (d : Deps) (now : Int) (order : List String) (e : Entity)
    (exclude : String) (row0 : GoMap) (k : String)
    (hmap : e.Map = .ok row0) (horder : RangeOrder row0 order)
    (hpat : (∀ c ∈ exclude.data, c = ' ' ∨ c = '\t' ∨ c = '\n') ∨
      d.Compile (String.mk (trimCutset exclude.data)) = none)
    (hk : k ∈ mapKeys row0) (hne : k ≠ "") (hsne : d.MakeFieldName k ≠ "")
    (hcanon : d.MakeFieldName (d.MakeFieldName k) = d.MakeFieldName k) :
    ∃ row, entityToRow d now order e exclude = .ok row ∧
      d.MakeFieldName k ∈ mapKeys row ∧ (mapGet row (d.MakeFieldName k)).isSome = true := by
  refine ⟨_, entityToRow_eq d now order e exclude row0 hmap, ?_⟩
  rw [excludeMatcher_fallback d exclude hpat]
  have hpres : (mapGet row0 k).isSome = true := by
    cases h : mapGet row0 k with
    | none => exact absurd hk ((mapGet_eq_none_iff row0 k).mp h)
    | some v => rfl
  have hloop := isSome_foldl_sanitised d matchEmptyOnly k (by simp [matchEmptyOnly, hne])
    (by simp [matchEmptyOnly, hsne]) hcanon order row0 (Or.inr ⟨hpres, horder.2 k hk⟩)
  have hfin : (mapGet (mapSet (order.foldl (stepRow d matchEmptyOnly) row0) "__timestamp__"
      (.str (d.FormatRFC3339 now))) (d.MakeFieldName k)).isSome = true := by
    rw [mapGet_mapSet]
    split
    · rfl
    · exact hloop
  refine ⟨?_, hfin⟩
  by_contra hc
  rw [(mapGet_eq_none_iff _ _).mpr hc] at hfin
  simp at hfin

/-! ## Sanitised names and stored values: the claims -/

/-- C16 as stated fails: in the record of twelve properties the property "a.b"
passes the exclusion, is sanitised to "a_b", and no other property is named or
sanitised to "a.b" or "a_b"; its normalised value is the inner wrapper. When the
iteration produces the entry created under "a_b" after "a.b", that entry is
normalised once more and the returned row holds 1 under "a_b". -/
theorem C16_counterexample :
    (∃ row, entityToRow sanitizingDeps 0 twelveOrder ⟨"k1", "Kind", .ok twelveProperties⟩ ""
        = .ok row ∧ mapGet row "a_b" = some (.int 1)) ∧
      RangeOrder twelveProperties twelveOrder ∧
      mapGet twelveProperties "a.b" = some (.obj [("value", .obj [("value", .int 1)])]) ∧
      excludeMatcher sanitizingDeps "" "a.b" = false ∧
      sanitizingDeps.MakeFieldName "a.b" = "a_b" ∧
      (∀ k ∈ mapKeys twelveProperties, k ≠ "a.b" →
        k ≠ "a_b" ∧ sanitizingDeps.MakeFieldName k ≠ "a.b" ∧
          sanitizingDeps.MakeFieldName k ≠ "a_b") ∧
      (fieldValue sanitizingDeps.Marshal (.obj [("value", .obj [("value", .int 1)])])).1
        = .obj [("value", .int 1)] ∧
      Value.int 1 ≠ .obj [("value", .int 1)] := by
  refine ⟨⟨_, rfl, rfl⟩, by decide, rfl, by decide, by decide, by decide, rfl, ?_⟩
  intro h
  exact Value.noConfusion h

/-- C16 (amended): for a record whose property map can be read, entityToRow
returns a row such that every property that passes the exclusion and whose name
is left unchanged by MakeFieldName keeps its key, and such that for every
property k that passes the exclusion and whose sanitised name differs from k the
row has no key k and holds under MakeFieldName(k) the normalised value of k, or
that value normalised once more when the iteration also produces the entry
created under MakeFieldName(k) (exactly the normalised value when it is neither
a sequence nor a map); the statement on k holds provided neither k nor
MakeFieldName(k) is "__timestamp__", MakeFieldName(k) is left unchanged by
MakeFieldName and passes the exclusion, and no other considered key apart from
MakeFieldName(k) passes the exclusion and is sanitised to k or to
MakeFieldName(k). -/
theorem C16_sanitised_name_replaces_key (d : Deps) (now : Int) (order : List String)
    (e : Entity) (exclude : String) (row0 : GoMap)
    (hmap : e.Map = .ok row0) (horder : RangeOrder row0 order) :
    ∃ row, entityToRow d now order e exclude = .ok row ∧
      (∀ k2 ∈ mapKeys row0, excludeMatcher d exclude k2 = false → d.MakeFieldName k2 = k2 →
        k2 ∈ mapKeys row) ∧
      (∀ (k : String) (v : Value), mapGet row0 k = some v →
        excludeMatcher d exclude k = false → d.MakeFieldName k ≠ k →
        k ≠ "__timestamp__" → d.MakeFieldName k ≠ "__timestamp__" →
        d.MakeFieldName (d.MakeFieldName k) = d.MakeFieldName k →
        excludeMatcher d exclude (d.MakeFieldName k) = false →
        (∀ k1 ∈ order, k1 ≠ k → k1 ≠ d.MakeFieldName k →
          excludeMatcher d exclude k1 = false →
          d.MakeFieldName k1 ≠ k ∧ d.MakeFieldName k1 ≠ d.MakeFieldName k) →
        mapGet row k = none ∧ k ∉ mapKeys row ∧
          (mapGet row (d.MakeFieldName k) = some (fieldValue d.Marshal v).1 ∨
            (d.MakeFieldName k ∈ order ∧
              mapGet row (d.MakeFieldName k)
                = some (fieldValue d.Marshal (fieldValue d.Marshal v).1).1)) ∧
          (scalarValue (fieldValue d.Marshal v).1 = true →
            mapGet row (d.MakeFieldName k) = some (fieldValue d.Marshal v).1)) := by
  have hrow2 := entityToRow_eq d now order e exclude row0 hmap
  refine ⟨_, hrow2, ?_, ?_⟩
  · intro k2 hk2 hre2 hc2
    have hpres : (mapGet row0 k2).isSome = true := by
      cases h : mapGet row0 k2 with
      | none => exact absurd hk2 ((mapGet_eq_none_iff row0 k2).mp h)
      | some v2 => rfl
    have hloop := isSome_foldl_sanitised d (excludeMatcher d exclude) k2 hre2
      (by rw [hc2]; exact hre2) (by rw [hc2, hc2]) order row0
      (Or.inr ⟨hpres, horder.2 k2 hk2⟩)
    rw [hc2] at hloop
    by_contra hc
    have hnone := (mapGet_eq_none_iff _ k2).mpr hc
    rw [mapGet_mapSet] at hnone
    split at hnone
    · exact Option.noConfusion hnone
    · rw [hnone] at hloop
      simp at hloop
  · intro k v hk hex hdiff hkts hts hcanon hmex hothers
    obtain ⟨row, hrow, hval⟩ := entityToRow_property d now order e exclude row0 k v hmap horder
      hk hex hts hcanon hmex hothers
    rw [hrow2] at hrow
    cases hrow
    have hkmem : k ∈ order := horder.2 k (mem_mapKeys_of_mapGet row0 k v hk)
    have hgone : mapGet (mapSet (order.foldl (stepRow d (excludeMatcher d exclude)) row0)
        "__timestamp__" (.str (d.FormatRFC3339 now))) k = none := by
      rw [mapGet_mapSet, if_neg hkts]
      apply mapGet_foldl_removed d _ k (Or.inr hdiff) order row0 (Or.inr hkmem)
      intro k1 h1 hne hre
      by_cases hm : k1 = d.MakeFieldName k
      · rw [hm, hcanon]
        exact hdiff
      · exact (hothers k1 h1 hne hm hre).1
    refine ⟨hgone, (mapGet_eq_none_iff _ k).mp hgone, ?_, ?_⟩
    · rcases hval with h | ⟨_, hmem, h⟩
      · exact Or.inl h
      · exact Or.inr ⟨hmem, h⟩
    · intro hs
      rcases hval with h | ⟨_, _, h⟩
      · exact h
      · rw [h, fieldValue_scalar d.Marshal _ hs]

/-- Witness of C16: the record with the properties a.b and c under the sanitiser
that replaces the dot, with an iteration that also produces the created entry:
the canonical name c keeps its key, a.b is replaced by a_b. -/
theorem C16_witness :
    ∃ row, entityToRow sanitizingDeps 0 ["a.b", "c", "a_b"]
        ⟨"k1", "Kind", .ok [("a.b", .str "x"), ("c", .int 2)]⟩ "" = .ok row ∧
      "c" ∈ mapKeys row ∧
      mapGet row "a.b" = none ∧ "a.b" ∉ mapKeys row ∧
      (mapGet row (sanitizingDeps.MakeFieldName "a.b")
          = some (fieldValue sanitizingDeps.Marshal (.str "x")).1 ∨
        (sanitizingDeps.MakeFieldName "a.b" ∈ ["a.b", "c", "a_b"] ∧
          mapGet row (sanitizingDeps.MakeFieldName "a.b")
            = some (fieldValue sanitizingDeps.Marshal
                (fieldValue sanitizingDeps.Marshal (.str "x")).1).1)) ∧
      (scalarValue (fieldValue sanitizingDeps.Marshal (.str "x")).1 = true →
        mapGet row (sanitizingDeps.MakeFieldName "a.b")
          = some (fieldValue sanitizingDeps.Marshal (.str "x")).1) :=
  match C16_sanitised_name_replaces_key sanitizingDeps 0 ["a.b", "c", "a_b"]
    ⟨"k1", "Kind", .ok [("a.b", .str "x"), ("c", .int 2)]⟩ ""
    [("a.b", .str "x"), ("c", .int 2)] rfl (by decide) with
  | ⟨row, hrow, hkeep, hmove⟩ =>
    ⟨row, hrow, hkeep "c" (by decide) (by decide) (by decide),
      hmove "a.b" (.str "x") rfl (by decide) (by decide) (by decide) (by decide) (by decide)
        (by decide) (by decide)⟩

/-- C17 as stated fails for the final row: the property "__timestamp__" passes
the empty exclusion and holds the integer 7, yet the returned row holds the
rendering of the clock reading under that name. -/
theorem C17_counterexample :
    entityToRow exampleDeps 0 ["__timestamp__", "a"]
        ⟨"k1", "Kind", .ok [("__timestamp__", .int 7), ("a", .str "x")]⟩ ""
        = .ok [("__timestamp__", .str "2014-05-01T12:00:00Z"), ("a", .str "x")] ∧
      RangeOrder [("__timestamp__", .int 7), ("a", .str "x")] ["__timestamp__", "a"] ∧
      excludeMatcher exampleDeps "" "__timestamp__" = false ∧
      exampleDeps.MakeFieldName "__timestamp__" = "__timestamp__" ∧
      scalarValue (.int 7) = true ∧
      Value.str "2014-05-01T12:00:00Z" ≠ .int 7 := by
  refine ⟨rfl, by decide, by decide, rfl, rfl, ?_⟩
  intro h
  exact Value.noConfusion h

/-- C17 (amended): let k be a property that passes the exclusion, and let w be
its value when that value is neither a sequence nor a map, or the "value"
member of its value when that value is a tagged wrapper whose type marker is not
"blob". The body of the loop stores w under MakeFieldName(k), whatever the map
holds otherwise. The returned row still holds w under that name, or w normalised
once more when the iteration also produces the entry created under it, and
exactly w when w is neither a sequence nor a map, provided MakeFieldName(k) is
not "__timestamp__", is left unchanged by MakeFieldName and passes the
exclusion, and no other considered key apart from that name passes the exclusion
and is sanitised to k or to MakeFieldName(k). -/
theorem C17_scalar_and_wrapped_value (d : Deps) (exclude : String) (k : String) (v w : Value)
    (hex : excludeMatcher d exclude k = false)
    (hval : (scalarValue v = true ∧ w = v) ∨
      (∃ m t, v = .obj m ∧ mapGet m "type" = some t ∧ isBlob t = false ∧
        w = mapIndex m "value")) :
    (∀ row1 : GoMap, mapGet row1 k = some v →
      ∃ row2, rangeBody d (excludeMatcher d exclude) row1 k v = .ok row2 ∧
        mapGet row2 (d.MakeFieldName k) = some w) ∧
    (∀ (now : Int) (order : List String) (e : Entity) (row0 : GoMap),
      e.Map = .ok row0 → RangeOrder row0 order → mapGet row0 k = some v →
      d.MakeFieldName k ≠ "__timestamp__" →
      d.MakeFieldName (d.MakeFieldName k) = d.MakeFieldName k →
      excludeMatcher d exclude (d.MakeFieldName k) = false →
      (∀ k1 ∈ order, k1 ≠ k → k1 ≠ d.MakeFieldName k →
        excludeMatcher d exclude k1 = false →
        d.MakeFieldName k1 ≠ k ∧ d.MakeFieldName k1 ≠ d.MakeFieldName k) →
      ∃ row, entityToRow d now order e exclude = .ok row ∧
        (mapGet row (d.MakeFieldName k) = some w ∨
          (d.MakeFieldName k ≠ k ∧ d.MakeFieldName k ∈ order ∧
            mapGet row (d.MakeFieldName k) = some (fieldValue d.Marshal w).1)) ∧
        (scalarValue w = true → mapGet row (d.MakeFieldName k) = some w)) := by
  have hnv : (fieldValue d.Marshal v).1 = w := by
    rcases hval with ⟨hs, rfl⟩ | ⟨m, t, rfl, hm, hb, rfl⟩
    · exact fieldValue_scalar d.Marshal _ hs
    · simp [fieldValue, hm, hb]
  constructor
  · intro row1 h1
    refine ⟨_, rangeBody_eq d _ row1 k v h1, ?_⟩
    rw [mapGet_stepRow, h1]
    simp [hex, hnv]
  · intro now order e row0 hmap horder hk hts hcanon hmex hothers
    obtain ⟨row, hrow, hfin⟩ := entityToRow_property d now order e exclude row0 k v hmap horder
      hk hex hts hcanon hmex hothers
    rw [hnv] at hfin
    refine ⟨row, hrow, hfin, ?_⟩
    intro hs
    rcases hfin with h | ⟨_, _, h⟩
    · exact h
    · rw [h, fieldValue_scalar d.Marshal _ hs]

/-- Witness of C17: the record with a string under a and a tagged date wrapper
under born. -/
theorem C17_witness :
    (∀ row1 : GoMap,
      mapGet row1 "born" = some (.obj [("type", .str "date"), ("value", .str "2014-05-01")]) →
      ∃ row2, rangeBody exampleDeps (excludeMatcher exampleDeps "") row1 "born"
          (.obj [("type", .str "date"), ("value", .str "2014-05-01")]) = .ok row2 ∧
        mapGet row2 (exampleDeps.MakeFieldName "born") = some (.str "2014-05-01")) ∧
    (∃ row, entityToRow exampleDeps 0 ["a", "born"]
        ⟨"k1", "Kind",
          .ok [("a", .str "x"),
            ("born", .obj [("type", .str "date"), ("value", .str "2014-05-01")])]⟩ ""
        = .ok row ∧
      (mapGet row (exampleDeps.MakeFieldName "born") = some (.str "2014-05-01") ∨
        (exampleDeps.MakeFieldName "born" ≠ "born" ∧
          exampleDeps.MakeFieldName "born" ∈ ["a", "born"] ∧
          mapGet row (exampleDeps.MakeFieldName "born")
            = some (fieldValue exampleDeps.Marshal (.str "2014-05-01")).1)) ∧
      (scalarValue (.str "2014-05-01") = true →
        mapGet row (exampleDeps.MakeFieldName "born") = some (.str "2014-05-01"))) :=
  have h := C17_scalar_and_wrapped_value exampleDeps "" "born"
    (.obj [("type", .str "date"), ("value", .str "2014-05-01")]) (.str "2014-05-01")
    (by decide)
    (Or.inr ⟨[("type", .str "date"), ("value", .str "2014-05-01")], .str "date", rfl, rfl,
      by decide, rfl⟩)
  ⟨h.1,
    h.2 0 ["a", "born"]
      ⟨"k1", "Kind",
        .ok [("a", .str "x"),
          ("born", .obj [("type", .str "date"), ("value", .str "2014-05-01")])]⟩
      [("a", .str "x"), ("born", .obj [("type", .str "date"), ("value", .str "2014-05-01")])]
      rfl (by decide) rfl (by decide) rfl (by decide) (by decide)⟩

/-- C18 as stated fails for the final row: the property "__timestamp__" passes
the empty exclusion and holds a map without a "type" key whose "value" member is
7, yet the returned row holds the rendering of the clock reading under that
name. -/
theorem C18_counterexample :
    entityToRow exampleDeps 0 ["__timestamp__"]
        ⟨"k1", "Kind", .ok [("__timestamp__", .obj [("value", .int 7), ("unit", .str "s")])]⟩ ""
        = .ok [("__timestamp__", .str "2014-05-01T12:00:00Z")] ∧
      RangeOrder [("__timestamp__", .obj [("value", .int 7), ("unit", .str "s")])]
        ["__timestamp__"] ∧
      excludeMatcher exampleDeps "" "__timestamp__" = false ∧
      exampleDeps.MakeFieldName "__timestamp__" = "__timestamp__" ∧
      mapGet [("value", Value.int 7), ("unit", Value.str "s")] "type" = none ∧
      mapIndex [("value", Value.int 7), ("unit", Value.str "s")] "value" = .int 7 ∧
      Value.str "2014-05-01T12:00:00Z" ≠ .int 7 := by
  refine ⟨rfl, by decide, by decide, rfl, rfl, rfl, ?_⟩
  intro h
  exact Value.noConfusion h

/-- C18 (amended): for every property k that passes the exclusion and whose
value is a map without a "type" key, the body of the loop stores the "value"
member of the map under MakeFieldName(k), nil when the map has no such member,
whatever the map of the record holds otherwise, and the stored value does not
depend on the other members. The returned row still holds that member under
MakeFieldName(k), or the member normalised once more when the iteration also
produces the entry created under that name, and holds nil under it when the map
has no "value" member, provided MakeFieldName(k) is not "__timestamp__", is left
unchanged by MakeFieldName and passes the exclusion, and no other considered key
apart from that name passes the exclusion and is sanitised to k or to
MakeFieldName(k). -/
theorem C18_untyped_map_value (d : Deps) (exclude : String) (k : String) (m : GoMap)
    (hex : excludeMatcher d exclude k = false) (htype : mapGet m "type" = none) :
    (∀ row1 : GoMap, mapGet row1 k = some (.obj m) →
      ∃ row2, rangeBody d (excludeMatcher d exclude) row1 k (.obj m) = .ok row2 ∧
        mapGet row2 (d.MakeFieldName k) = some (mapIndex m "value") ∧
        d.MakeFieldName k ∈ mapKeys row2) ∧
    (∀ m2 : GoMap, mapGet m2 "type" = none → mapGet m2 "value" = mapGet m "value" →
      (fieldValue d.Marshal (.obj m2)).1 = (fieldValue d.Marshal (.obj m)).1) ∧
    (mapGet m "value" = none → mapIndex m "value" = .null) ∧
    (∀ (now : Int) (order : List String) (e : Entity) (row0 : GoMap),
      e.Map = .ok row0 → RangeOrder row0 order → mapGet row0 k = some (.obj m) →
      d.MakeFieldName k ≠ "__timestamp__" →
      d.MakeFieldName (d.MakeFieldName k) = d.MakeFieldName k →
      excludeMatcher d exclude (d.MakeFieldName k) = false →
      (∀ k1 ∈ order, k1 ≠ k → k1 ≠ d.MakeFieldName k →
        excludeMatcher d exclude k1 = false →
        d.MakeFieldName k1 ≠ k ∧ d.MakeFieldName k1 ≠ d.MakeFieldName k) →
      ∃ row, entityToRow d now order e exclude = .ok row ∧
        (mapGet row (d.MakeFieldName k) = some (mapIndex m "value") ∨
          (d.MakeFieldName k ≠ k ∧ d.MakeFieldName k ∈ order ∧
            mapGet row (d.MakeFieldName k)
              = some (fieldValue d.Marshal (mapIndex m "value")).1)) ∧
        (mapGet m "value" = none →
          mapGet row (d.MakeFieldName k) = some .null ∧ d.MakeFieldName k ∈ mapKeys row)) := by
  have hnv : ∀ m2 : GoMap, mapGet m2 "type" = none →
      (fieldValue d.Marshal (.obj m2)).1 = mapIndex m2 "value" := by
    intro m2 h2
    simp [fieldValue, h2]
  refine ⟨?_, ?_, ?_, ?_⟩
  · intro row1 h1
    have hget : mapGet (stepRow d (excludeMatcher d exclude) row1 k) (d.MakeFieldName k)
        = some (mapIndex m "value") := by
      rw [mapGet_stepRow, h1]
      simp [hex, hnv m htype]
    exact ⟨_, rangeBody_eq d _ row1 k _ h1, hget, mem_mapKeys_of_mapGet _ _ _ hget⟩
  · intro m2 h2 hv
    rw [hnv m2 h2, hnv m htype]
    simp [mapIndex, hv]
  · intro hv
    simp [mapIndex, hv]
  · intro now order e row0 hmap horder hk hts hcanon hmex hothers
    obtain ⟨row, hrow, hfin⟩ := entityToRow_property d now order e exclude row0 k (.obj m) hmap
      horder hk hex hts hcanon hmex hothers
    rw [hnv m htype] at hfin
    refine ⟨row, hrow, hfin, ?_⟩
    intro hv
    have hnull : mapIndex m "value" = .null := by simp [mapIndex, hv]
    have hget : mapGet row (d.MakeFieldName k) = some .null := by
      rw [hnull] at hfin
      rcases hfin with h | ⟨_, _, h⟩
      · exact h
      · rw [h]; rfl
    exact ⟨hget, mem_mapKeys_of_mapGet row _ _ hget⟩

/-- Witness of C18: the record whose property size is a map with a "value"
member and a further member, without a "type" key. -/
theorem C18_witness :
    (∀ row1 : GoMap,
      mapGet row1 "size" = some (.obj [("value", .int 7), ("unit", .str "s")]) →
      ∃ row2, rangeBody exampleDeps (excludeMatcher exampleDeps "") row1 "size"
          (.obj [("value", .int 7), ("unit", .str "s")]) = .ok row2 ∧
        mapGet row2 (exampleDeps.MakeFieldName "size")
          = some (mapIndex [("value", .int 7), ("unit", .str "s")] "value") ∧
        exampleDeps.MakeFieldName "size" ∈ mapKeys row2) ∧
    (∃ row, entityToRow exampleDeps 0 ["size"]
        ⟨"k1", "Kind", .ok [("size", .obj [("value", .int 7), ("unit", .str "s")])]⟩ ""
        = .ok row ∧
      (mapGet row (exampleDeps.MakeFieldName "size")
          = some (mapIndex [("value", .int 7), ("unit", .str "s")] "value") ∨
        (exampleDeps.MakeFieldName "size" ≠ "size" ∧
          exampleDeps.MakeFieldName "size" ∈ ["size"] ∧
          mapGet row (exampleDeps.MakeFieldName "size")
            = some (fieldValue exampleDeps.Marshal
                (mapIndex [("value", .int 7), ("unit", .str "s")] "value")).1)) ∧
      (mapGet [("value", Value.int 7), ("unit", Value.str "s")] "value" = none →
        mapGet row (exampleDeps.MakeFieldName "size") = some .null ∧
          exampleDeps.MakeFieldName "size" ∈ mapKeys row)) :=
  have h := C18_untyped_map_value exampleDeps "" "size"
    [("value", .int 7), ("unit", .str "s")] (by decide) rfl
  ⟨h.1,
    h.2.2.2 0 ["size"]
      ⟨"k1", "Kind", .ok [("size", .obj [("value", .int 7), ("unit", .str "s")])]⟩
      [("size", .obj [("value", .int 7), ("unit", .str "s")])]
      rfl (by decide) rfl (by decide) rfl (by decide) (by decide)⟩

end bigquerysync
